import Mathlib

/-!
# Interop output stream of the binary encoder, and the helpers around it

A shallow embedding of `modules/platforms/cpp/binary/src/impl/interop/interop_output_stream.cpp`,
of the string and byte-order helpers of `modules/platforms/cpp/common/src/common/utils.cpp`, and
of the string facade of `modules/platforms/cpp/binary/src/binary/binary_writer.cpp`.

Conventions of the embedding:

* every `int32_t` / `int` value is an `Int`; an `int32_t` addition or left shift is followed by
  `wrap32`, the two's-complement wrap to 32 bits;
* a byte is a `Nat` (its unsigned value, `0 .. 255`); the bytes reachable from a pointer are a
  function from the signed offset to the byte, so that a store through `data + pos` at any
  offset, also a negative one or one past the allocation, has a meaning in the model;
* the host's byte order is a parameter (`Endian`): the stream stores scalars through
  `*reinterpret_cast<type*>(data + pos) = val`, i.e. in the object representation of the host;
* `InteropMemory` is declared in a header that is not part of the sources at hand; its fields
  are modelled from the contract in the specification and its `Reallocate` is a parameter;
* a stream carries the list of `Reallocate` calls and stores it has performed (`trace`), which is
  pure instrumentation: no operation reads it.
-/

namespace ignite

/-- Two's-complement wrap of an integer to the range of `int32_t`. -/
def wrap32 (x : Int) : Int := (x + 2147483648) % 4294967296 - 2147483648

/-- Conversion of an `int32_t` to `size_t` (64 bit), as done for the length argument of `memcpy`. -/
def toSizeT (x : Int) : Nat := (x % 18446744073709551616).toNat

/-- Byte order of the host. -/
inductive Endian where
  | little
  | big
deriving DecidableEq, Repr

/-- Byte number `i` (counted from the least significant one) of the two's-complement
representation of `v`. -/
def leByte (v : Int) (i : Nat) : Nat := ((v / 256 ^ i) % 256).toNat

/-- Byte at address offset `i` of the object representation, on host `h`, of a scalar `v`
whose type has `size` bytes. -/
def hostByte (h : Endian) (size : Nat) (v : Int) (i : Nat) : Nat :=
  match h with
  | Endian.little => leByte v i
  | Endian.big => leByte v (size - 1 - i)

/-- Unsigned value of the `size` bytes `b 0 .. b (size-1)` taken least significant first. -/
def loadLE : Nat → (Nat → Nat) → Nat
  | 0, _ => 0
  | size + 1, b => loadLE size b + b size * 256 ^ size

/-- Unsigned value of a `size`-byte scalar whose object representation on host `h` is
`b 0 .. b (size-1)` in address order. -/
def hostLoad (h : Endian) (size : Nat) (b : Nat → Nat) : Nat :=
  match h with
  | Endian.little => loadLE size b
  | Endian.big => loadLE size (fun i => b (size - 1 - i))

/-- Two's-complement reading of an unsigned `size`-byte value as a signed one. -/
def asSigned (size : Nat) (u : Nat) : Int :=
  if u < 2 ^ (8 * size - 1) then (u : Int) else (u : Int) - 2 ^ (8 * size)

namespace common

/-! ### `modules/platforms/cpp/common/src/common/utils.cpp`

A `std::string` is the list of its characters; `size_type` values are natural numbers. -/

/-- Three-way comparison of two character sequences, as `std::string::compare` does it: negative,
zero or positive as the first one is less than, equal to or greater than the second. -/
def compareChars : List Char → List Char → Int
  | [], [] => 0
  | [], _ :: _ => -1
  | _ :: _, [] => 1
  | a :: as, b :: bs => if a < b then -1 else if b < a then 1 else compareChars as bs

/-- The call `str.compare(pos, len, other)`: the substring of at most `len` characters of `str`
that starts at `pos`, compared with `other`. -/
def compare (str : List Char) (pos len : Nat) (other : List Char) : Int :=
  compareChars ((str.drop pos).take len) other

/-- `StringEndsWith(const std::string& str, const std::string& ending)`. -/
def StringEndsWith (str ending : List Char) : Bool :=
  if str.length > ending.length then
    compare str (str.length - ending.length) ending.length ending == 0
  else
    false

/-- The library predicate `::isspace` in the "C" locale: space, `\t`, `\n`, `\v`, `\f`, `\r`. -/
def isspaceC (c : Char) : Bool :=
  c.toNat == 32 || (9 ≤ c.toNat && c.toNat ≤ 13)

/-- The first loop of `StripSurroundingWhitespaces`,
`while (newBegin < str.size() && ::isspace(str[newBegin])) ++newBegin;`.
The first argument is the part of `str` from index `newBegin` on; the result is the final
`newBegin`. -/
def skipLeading (isspace : Char → Bool) : List Char → Nat → Nat
  | [], newBegin => newBegin
  | c :: rest, newBegin => if isspace c then skipLeading isspace rest (newBegin + 1) else newBegin

/-- The second loop of `StripSurroundingWhitespaces`, `while (::isspace(str[newEnd])) --newEnd;`,
started at `newEnd`. The loop has no bound check: the result is `none` when it would read
outside the string or decrement `newEnd` below 0. -/
def skipTrailing (isspace : Char → Bool) (str : List Char) : Nat → Option Nat
  | 0 =>
    match str[0]? with
    | none => none
    | some c => if isspace c then none else some 0
  | newEnd + 1 =>
    match str[newEnd + 1]? with
    | none => none
    | some c => if isspace c then skipTrailing isspace str newEnd else some (newEnd + 1)

/-- `StripSurroundingWhitespaces(std::string& str)`: the value of `str` after the call, or
`none` when the call has no defined result. The library predicate `::isspace` is a parameter. -/
def StripSurroundingWhitespaces (isspace : Char → Bool) (str : List Char) :
    Option (List Char) :=
  let newBegin := skipLeading isspace str 0
  if newBegin = str.length then
    some []
  else
    match skipTrailing isspace str (str.length - 1) with
    | none => none
    | some newEnd =>
      if newEnd < newBegin then none
      else some ((str.drop newBegin).take ((newEnd - newBegin) + 1))

/-- The string with its maximal whitespace prefix and its maximal whitespace suffix removed, as
the property words it. -/
def stripped (isspace : Char → Bool) (s : List Char) : List Char :=
  (s.dropWhile isspace).rdropWhile isspace

/-- `t` is a substring of `s` that starts and ends with a non-whitespace character. -/
def IsTrimmedSubstring (isspace : Char → Bool) (t s : List Char) : Prop :=
  t <:+: s ∧ ∃ (a b : Char), t.head? = some a ∧ t.getLast? = some b ∧
    isspace a = false ∧ isspace b = false

/-- `ToBigEndian(uint32_t value)` on host `h`. The flag `isLittleEndian` compares the first byte
of the object representation of the `int` 42 with 42. -/
def ToBigEndian (h : Endian) (value : Nat) : Nat :=
  let num : Int := 42
  let isLittleEndian : Bool := hostByte h 4 num 0 == 42
  if isLittleEndian then
    (((value &&& 0xFF) <<< 24) ||| (((value >>> 8) &&& 0xFF) <<< 16) |||
      (((value >>> 16) &&& 0xFF) <<< 8) ||| ((value >>> 24) &&& 0xFF)) % 4294967296
  else
    value

/-- Byte number `i` (from the least significant one) of an unsigned value. -/
def byteOf (v : Nat) (i : Nat) : Nat := (v / 256 ^ i) % 256

end common

namespace binary

/-! ### `modules/platforms/cpp/binary/src/binary/binary_writer.cpp` -/

/-- A `const char*` argument: `none` is the null pointer, `some bytes` are the bytes found from
the pointer on. -/
abbrev CharPtr := Option (List Nat)

/-- The library function `strlen`: the number of bytes before the first zero byte. -/
def strlen (bytes : List Nat) : Nat :=
  (bytes.takeWhile (fun b => b != 0)).length

/-- Modelled from the spec: the calls that `BinaryWriter::WriteString` and
`BinaryWriter::WriteNull` make on the implementation `BinaryWriterImpl`, whose header and source
are not among the sources. -/
inductive ImplCall where
  | WriteString (fieldName : CharPtr) (val : CharPtr) (len : Int)
  | WriteNull (fieldName : CharPtr)
deriving DecidableEq

/-- Modelled from the spec: the implementation behind the facade, a parameter of the model: what
a call does to the state of the implementation, or the error it raises. -/
abbrev Impl (σ ε : Type) := ImplCall → σ → Except ε σ

/-- An implementation that only records the calls it receives and never fails. -/
def recordingImpl : Impl (List ImplCall) Unit :=
  fun call calls => Except.ok (calls ++ [call])

namespace BinaryWriter

/-- `BinaryWriter::WriteString(const char* fieldName, const char* val, int32_t len)`. -/
def WriteStringLen {σ ε : Type} (impl : Impl σ ε) (fieldName val : CharPtr) (len : Int)
    (st : σ) : Except ε σ :=
  impl (ImplCall.WriteString fieldName val len) st

/-- `BinaryWriter::WriteNull(const char* fieldName)`. -/
def WriteNull {σ ε : Type} (impl : Impl σ ε) (fieldName : CharPtr) (st : σ) : Except ε σ :=
  impl (ImplCall.WriteNull fieldName) st

/-- `BinaryWriter::WriteString(const char* fieldName, const char* val)`. -/
def WriteString {σ ε : Type} (impl : Impl σ ε) (fieldName val : CharPtr) (st : σ) :
    Except ε σ :=
  match val with
  | some bytes => WriteStringLen impl fieldName val (wrap32 (strlen bytes)) st
  | none => WriteNull impl fieldName st

end BinaryWriter

end binary

namespace impl
namespace interop

/-- Modelled from the spec: the growable memory region `InteropMemory` (its header and
implementation are not among the sources). `data` are the bytes reachable from the pointer
`Data()`, `capacity` is `Capacity()` and `length` is the published logical length. -/
structure InteropMemory where
  data : Int → Nat
  capacity : Int
  length : Int

/-- The behaviour of `InteropMemory::Reallocate(newCapacity)`, a parameter of the model. -/
abbrev Reallocator := InteropMemory → Int → InteropMemory

/-- Modelled from the spec: the contract of `Reallocate(newCapacity)`, which "grows the backing
allocation to at least `newCapacity`, preserving existing bytes at their original offsets". -/
def Reallocator.Conforms (R : Reallocator) : Prop :=
  ∀ (m : InteropMemory) (n : Int),
    n ≤ (R m n).capacity ∧ ∀ i : Int, 0 ≤ i → i < m.capacity → (R m n).data i = m.data i

/-- A reallocator that sets the capacity to exactly the requested value. -/
def Reallocator.Exact (R : Reallocator) : Prop :=
  ∀ (m : InteropMemory) (n : Int), (R m n).capacity = n

/-- Modelled from the spec: `InteropMemory::Length(n)`, which "records the logical number of
valid bytes, independent of capacity". -/
def InteropMemory.Length (m : InteropMemory) (n : Int) : InteropMemory :=
  { m with length := n }

/-- What a stream does to its memory region: a call of `Reallocate`, or a store of `count` bytes
starting at offset `off` from the data pointer. -/
inductive MemEvent where
  | reallocate (newCapacity : Int)
  | store (off : Int) (count : Nat)
deriving DecidableEq, Repr

/-- State of an `InteropOutputStream`. The member `data` of the class always equals
`mem->Data()` (it is fetched in the constructor and again after every `Reallocate`), so the
bytes it points to are `mem.data`. -/
structure InteropOutputStream where
  mem : InteropMemory
  cap : Int
  pos : Int
  trace : List MemEvent

namespace InteropOutputStream

/-- Constructor `InteropOutputStream(InteropMemory* mem)`. -/
def new (mem : InteropMemory) : InteropOutputStream :=
  { mem := mem, cap := mem.capacity, pos := 0, trace := [] }

/-- The store `*reinterpret_cast<type*>(data + off) = val`, where `type` has `size` bytes. -/
def store (s : InteropOutputStream) (h : Endian) (off : Int) (size : Nat) (val : Int) :
    InteropOutputStream :=
  { s with
    mem := { s.mem with
      data := fun i =>
        if off ≤ i ∧ i < off + size then hostByte h size val (i - off).toNat else s.mem.data i }
    trace := s.trace ++ [MemEvent.store off size] }

/-- The call `memcpy(data + dst, src, count)`. -/
def memcpy (s : InteropOutputStream) (dst : Int) (src : Int → Nat) (count : Nat) :
    InteropOutputStream :=
  { s with
    mem := { s.mem with
      data := fun i => if dst ≤ i ∧ i < dst + count then src (i - dst) else s.mem.data i }
    trace := s.trace ++ [MemEvent.store dst count] }

/-- `InteropOutputStream::EnsureCapacity(int32_t reqCap)`. -/
def EnsureCapacity (R : Reallocator) (s : InteropOutputStream) (reqCap : Int) :
    InteropOutputStream :=
  if reqCap > s.cap then
    let newCap := wrap32 (s.cap * 2)
    let newCap := if newCap < reqCap then reqCap else newCap
    { s with
      mem := R s.mem newCap
      cap := newCap
      trace := s.trace ++ [MemEvent.reallocate newCap] }
  else s

/-- `InteropOutputStream::Shift(int32_t cnt)`. -/
def Shift (s : InteropOutputStream) (cnt : Int) : InteropOutputStream :=
  { s with pos := wrap32 (s.pos + cnt) }

/-- `InteropOutputStream::CopyAndShift(const int8_t* src, int32_t off, int32_t len)`. -/
def CopyAndShift (R : Reallocator) (s : InteropOutputStream) (src : Int → Nat) (off len : Int) :
    InteropOutputStream :=
  let s := EnsureCapacity R s (wrap32 (s.pos + len))
  let s := memcpy s s.pos (fun j => src (off + j)) (toSizeT len)
  Shift s len

/-- The macro `IGNITE_INTEROP_OUT_WRITE(val, type, len)`; `size` is `sizeof(type)`. -/
def IGNITE_INTEROP_OUT_WRITE (R : Reallocator) (h : Endian) (s : InteropOutputStream)
    (val : Int) (size : Nat) (len : Int) : InteropOutputStream :=
  let s := EnsureCapacity R s (wrap32 (s.pos + len))
  let s := store s h s.pos size val
  Shift s len

/-- The macro `IGNITE_INTEROP_OUT_WRITE_ARRAY(val, len)`; `val` is the array seen as bytes. -/
def IGNITE_INTEROP_OUT_WRITE_ARRAY (R : Reallocator) (s : InteropOutputStream)
    (val : Int → Nat) (len : Int) : InteropOutputStream :=
  CopyAndShift R s val 0 len

/-- The bytes of an array of scalars of `size` bytes each, as seen through
`reinterpret_cast<const int8_t*>(val)` on host `h`. -/
def arrayBytes (h : Endian) (size : Nat) (val : Int → Int) : Int → Nat :=
  fun j => hostByte h size (val (j / size)) (j % size).toNat

/-- The loop `for (int i = 0; i < len; i++) body(i)`. -/
def forLoop (len : Int) (body : InteropOutputStream → Int → InteropOutputStream)
    (s : InteropOutputStream) : InteropOutputStream :=
  (List.range len.toNat).foldl (fun acc i => body acc (i : Int)) s

/-- `WriteInt8(const int8_t val)`. -/
def WriteInt8 (R : Reallocator) (h : Endian) (s : InteropOutputStream) (val : Int) :
    InteropOutputStream :=
  IGNITE_INTEROP_OUT_WRITE R h s val 1 1

/-- `WriteInt8(const int8_t val, const int32_t pos)`. -/
def WriteInt8At (R : Reallocator) (h : Endian) (s : InteropOutputStream) (val : Int) (pos : Int) :
    InteropOutputStream :=
  let s := EnsureCapacity R s (wrap32 (pos + 1))
  store s h pos 1 val

/-- `WriteInt8Array(const int8_t* val, const int32_t len)`. -/
def WriteInt8Array (R : Reallocator) (s : InteropOutputStream) (val : Int → Nat) (len : Int) :
    InteropOutputStream :=
  IGNITE_INTEROP_OUT_WRITE_ARRAY R s val len

/-- `WriteBool(const bool val)`. -/
def WriteBool (R : Reallocator) (h : Endian) (s : InteropOutputStream) (val : Bool) :
    InteropOutputStream :=
  WriteInt8 R h s (if val then 1 else 0)

/-- `WriteBoolArray(const bool* val, const int32_t len)`. -/
def WriteBoolArray (R : Reallocator) (h : Endian) (s : InteropOutputStream) (val : Int → Bool)
    (len : Int) : InteropOutputStream :=
  forLoop len (fun s i => WriteBool R h s (val i)) s

/-- `WriteInt16(const int16_t val)`. -/
def WriteInt16 (R : Reallocator) (h : Endian) (s : InteropOutputStream) (val : Int) :
    InteropOutputStream :=
  IGNITE_INTEROP_OUT_WRITE R h s val 2 2

/-- `WriteInt16(const int32_t pos, const int16_t val)`. -/
def WriteInt16At (R : Reallocator) (h : Endian) (s : InteropOutputStream) (pos : Int) (val : Int) :
    InteropOutputStream :=
  let s := EnsureCapacity R s (wrap32 (pos + 2))
  store s h pos 2 val

/-- `WriteInt16Array(const int16_t* val, const int32_t len)`. -/
def WriteInt16Array (R : Reallocator) (h : Endian) (s : InteropOutputStream) (val : Int → Int)
    (len : Int) : InteropOutputStream :=
  IGNITE_INTEROP_OUT_WRITE_ARRAY R s (arrayBytes h 2 val) (wrap32 (len * 2))

/-- `WriteUInt16(const uint16_t val)`. -/
def WriteUInt16 (R : Reallocator) (h : Endian) (s : InteropOutputStream) (val : Int) :
    InteropOutputStream :=
  IGNITE_INTEROP_OUT_WRITE R h s val 2 2

/-- `WriteUInt16Array(const uint16_t* val, const int32_t len)`. -/
def WriteUInt16Array (R : Reallocator) (h : Endian) (s : InteropOutputStream) (val : Int → Int)
    (len : Int) : InteropOutputStream :=
  IGNITE_INTEROP_OUT_WRITE_ARRAY R s (arrayBytes h 2 val) (wrap32 (len * 2))

/-- `WriteInt32(const int32_t val)`. -/
def WriteInt32 (R : Reallocator) (h : Endian) (s : InteropOutputStream) (val : Int) :
    InteropOutputStream :=
  IGNITE_INTEROP_OUT_WRITE R h s val 4 4

/-- `WriteInt32(const int32_t pos, const int32_t val)`. -/
def WriteInt32At (R : Reallocator) (h : Endian) (s : InteropOutputStream) (pos : Int) (val : Int) :
    InteropOutputStream :=
  let s := EnsureCapacity R s (wrap32 (pos + 4))
  store s h pos 4 val

/-- `WriteInt32Array(const int32_t* val, const int32_t len)`. -/
def WriteInt32Array (R : Reallocator) (h : Endian) (s : InteropOutputStream) (val : Int → Int)
    (len : Int) : InteropOutputStream :=
  IGNITE_INTEROP_OUT_WRITE_ARRAY R s (arrayBytes h 4 val) (wrap32 (len * 4))

/-- `WriteInt64(const int64_t val)`. -/
def WriteInt64 (R : Reallocator) (h : Endian) (s : InteropOutputStream) (val : Int) :
    InteropOutputStream :=
  IGNITE_INTEROP_OUT_WRITE R h s val 8 8

/-- `WriteInt64(const int32_t pos, const int64_t val)`. -/
def WriteInt64At (R : Reallocator) (h : Endian) (s : InteropOutputStream) (pos : Int) (val : Int) :
    InteropOutputStream :=
  let s := EnsureCapacity R s (wrap32 (pos + 8))
  store s h pos 8 val

/-- `WriteInt64Array(const int64_t* val, const int32_t len)`. -/
def WriteInt64Array (R : Reallocator) (h : Endian) (s : InteropOutputStream) (val : Int → Int)
    (len : Int) : InteropOutputStream :=
  IGNITE_INTEROP_OUT_WRITE_ARRAY R s (arrayBytes h 8 val) (wrap32 (len * 8))

end InteropOutputStream

/-- The union `BinaryFloatInt32`: four bytes of storage shared by the members `f` and `i`. -/
structure BinaryFloatInt32 where
  raw : Nat → Nat

/-- Assignment `u.f = val`; a `float` is given by its IEEE-754 bit pattern `val`, and its object
representation has the byte order of the host. -/
def BinaryFloatInt32.setF (h : Endian) (val : Nat) : BinaryFloatInt32 :=
  { raw := fun k => hostByte h 4 (val : Int) k }

/-- Read of the member `u.i` (an `int32_t`). -/
def BinaryFloatInt32.i (h : Endian) (u : BinaryFloatInt32) : Int :=
  asSigned 4 (hostLoad h 4 u.raw)

/-- The union `BinaryDoubleInt64`: eight bytes of storage shared by the members `d` and `i`. -/
structure BinaryDoubleInt64 where
  raw : Nat → Nat

/-- Assignment `u.d = val`; a `double` is given by its IEEE-754 bit pattern `val`. -/
def BinaryDoubleInt64.setD (h : Endian) (val : Nat) : BinaryDoubleInt64 :=
  { raw := fun k => hostByte h 8 (val : Int) k }

/-- Read of the member `u.i` (an `int64_t`). -/
def BinaryDoubleInt64.i (h : Endian) (u : BinaryDoubleInt64) : Int :=
  asSigned 8 (hostLoad h 8 u.raw)

namespace InteropOutputStream

/-- `WriteFloat(const float val)`; `val` is the bit pattern of the float. -/
def WriteFloat (R : Reallocator) (h : Endian) (s : InteropOutputStream) (val : Nat) :
    InteropOutputStream :=
  let u := BinaryFloatInt32.setF h val
  WriteInt32 R h s (u.i h)

/-- `WriteFloatArray(const float* val, const int32_t len)`. -/
def WriteFloatArray (R : Reallocator) (h : Endian) (s : InteropOutputStream) (val : Int → Nat)
    (len : Int) : InteropOutputStream :=
  forLoop len (fun s i => WriteFloat R h s (val i)) s

/-- `WriteDouble(const double val)`; `val` is the bit pattern of the double. -/
def WriteDouble (R : Reallocator) (h : Endian) (s : InteropOutputStream) (val : Nat) :
    InteropOutputStream :=
  let u := BinaryDoubleInt64.setD h val
  WriteInt64 R h s (u.i h)

/-- `WriteDoubleArray(const double* val, const int32_t len)`. -/
def WriteDoubleArray (R : Reallocator) (h : Endian) (s : InteropOutputStream) (val : Int → Nat)
    (len : Int) : InteropOutputStream :=
  forLoop len (fun s i => WriteDouble R h s (val i)) s

/-- `Position() const`. -/
def Position (s : InteropOutputStream) : Int := s.pos

/-- `Position(const int32_t val)`. -/
def PositionSet (R : Reallocator) (s : InteropOutputStream) (val : Int) : InteropOutputStream :=
  let s := EnsureCapacity R s val
  { s with pos := val }

/-- `Reserve(int32_t num)`: the returned value and the state after the call. -/
def Reserve (R : Reallocator) (s : InteropOutputStream) (num : Int) : Int × InteropOutputStream :=
  let s := EnsureCapacity R s (wrap32 (s.pos + num))
  let res := s.pos
  let s := Shift s num
  (res, s)

/-- `Synchronize()`. -/
def Synchronize (s : InteropOutputStream) : InteropOutputStream :=
  { s with mem := s.mem.Length s.pos }

end InteropOutputStream

/-- The operations of the public interface of the stream that change its state, with their
arguments. -/
inductive Op where
  | WriteInt8 (val : Int)
  | WriteInt8At (val : Int) (pos : Int)
  | WriteInt8Array (val : Int → Nat) (len : Int)
  | WriteBool (val : Bool)
  | WriteBoolArray (val : Int → Bool) (len : Int)
  | WriteInt16 (val : Int)
  | WriteInt16At (pos : Int) (val : Int)
  | WriteInt16Array (val : Int → Int) (len : Int)
  | WriteUInt16 (val : Int)
  | WriteUInt16Array (val : Int → Int) (len : Int)
  | WriteInt32 (val : Int)
  | WriteInt32At (pos : Int) (val : Int)
  | WriteInt32Array (val : Int → Int) (len : Int)
  | WriteInt64 (val : Int)
  | WriteInt64At (pos : Int) (val : Int)
  | WriteInt64Array (val : Int → Int) (len : Int)
  | WriteFloat (val : Nat)
  | WriteFloatArray (val : Int → Nat) (len : Int)
  | WriteDouble (val : Nat)
  | WriteDoubleArray (val : Int → Nat) (len : Int)
  | Position (val : Int)
  | Reserve (num : Int)
  | Synchronize

/-- One call of an operation on a stream. -/
def Op.apply (R : Reallocator) (h : Endian) (s : InteropOutputStream) : Op → InteropOutputStream
  | Op.WriteInt8 val => InteropOutputStream.WriteInt8 R h s val
  | Op.WriteInt8At val pos => InteropOutputStream.WriteInt8At R h s val pos
  | Op.WriteInt8Array val len => InteropOutputStream.WriteInt8Array R s val len
  | Op.WriteBool val => InteropOutputStream.WriteBool R h s val
  | Op.WriteBoolArray val len => InteropOutputStream.WriteBoolArray R h s val len
  | Op.WriteInt16 val => InteropOutputStream.WriteInt16 R h s val
  | Op.WriteInt16At pos val => InteropOutputStream.WriteInt16At R h s pos val
  | Op.WriteInt16Array val len => InteropOutputStream.WriteInt16Array R h s val len
  | Op.WriteUInt16 val => InteropOutputStream.WriteUInt16 R h s val
  | Op.WriteUInt16Array val len => InteropOutputStream.WriteUInt16Array R h s val len
  | Op.WriteInt32 val => InteropOutputStream.WriteInt32 R h s val
  | Op.WriteInt32At pos val => InteropOutputStream.WriteInt32At R h s pos val
  | Op.WriteInt32Array val len => InteropOutputStream.WriteInt32Array R h s val len
  | Op.WriteInt64 val => InteropOutputStream.WriteInt64 R h s val
  | Op.WriteInt64At pos val => InteropOutputStream.WriteInt64At R h s pos val
  | Op.WriteInt64Array val len => InteropOutputStream.WriteInt64Array R h s val len
  | Op.WriteFloat val => InteropOutputStream.WriteFloat R h s val
  | Op.WriteFloatArray val len => InteropOutputStream.WriteFloatArray R h s val len
  | Op.WriteDouble val => InteropOutputStream.WriteDouble R h s val
  | Op.WriteDoubleArray val len => InteropOutputStream.WriteDoubleArray R h s val len
  | Op.Position val => InteropOutputStream.PositionSet R s val
  | Op.Reserve num => (InteropOutputStream.Reserve R s num).2
  | Op.Synchronize => InteropOutputStream.Synchronize s

/-- A sequence of calls, performed from left to right. -/
def run (R : Reallocator) (h : Endian) (s : InteropOutputStream) (ops : List Op) :
    InteropOutputStream :=
  ops.foldl (Op.apply R h) s

/-- A reallocator that allocates exactly the requested capacity and keeps the bytes. -/
def exactReallocate : Reallocator := fun m n => { m with capacity := n }

/-- A reallocator that rounds the requested capacity up to the next multiple of 16 (an
allocator with a 16-byte granule) and keeps the bytes. -/
def granuleReallocate : Reallocator := fun m n => { m with capacity := (n + 15) / 16 * 16 }

/-- A region of `capacity` bytes, all zero, with logical length 0. -/
def zeroMemory (capacity : Int) : InteropMemory :=
  { data := fun _ => 0, capacity := capacity, length := 0 }

/-- Whether the event stores to the byte at offset `i`. -/
def MemEvent.covers (e : MemEvent) (i : Int) : Bool :=
  match e with
  | MemEvent.reallocate _ => false
  | MemEvent.store off count => decide (off ≤ i ∧ i < off + count)

/-- The events performed on the way from state `s` to the later state `t`. -/
def newEvents (s t : InteropOutputStream) : List MemEvent :=
  t.trace.drop s.trace.length

/-- The byte at offset `i` is stored to on the way from `s` to `t`. -/
def Touches (s t : InteropOutputStream) (i : Int) : Prop :=
  ∃ e ∈ newEvents s t, e.covers i = true

/-- Every byte stored to on the way from `s` to `t` lies in `[0, t.cap)`. -/
def StoresWithin (s t : InteropOutputStream) : Prop :=
  ∀ i : Int, Touches s t i → 0 ≤ i ∧ i < t.cap

/-- Largest value of `int32_t`. -/
def INT32_MAX : Int := 2147483647

/-- Smallest value of `int32_t`. -/
def INT32_MIN : Int := -2147483648

/-- A state of a stream that has been constructed over a region of non-negative capacity and
has then gone through some sequence of operations. -/
def Reachable (R : Reallocator) (h : Endian) (s : InteropOutputStream) : Prop :=
  ∃ (mem : InteropMemory) (ops : List Op),
    0 ≤ mem.capacity ∧ s = run R h (InteropOutputStream.new mem) ops

/-- The part of the class invariant that relates the cached capacity to the region: the cached
`cap` is not negative, never exceeds the capacity of the region, and equals it for an exact
reallocator. -/
def CapInv (R : Reallocator) (s : InteropOutputStream) : Prop :=
  0 ≤ s.cap ∧ s.cap ≤ s.mem.capacity ∧ (R.Exact → s.cap = s.mem.capacity)

/-- The class invariant of the stream: the cursor does not exceed the cached capacity, which
does not exceed the capacity of the region (and equals it for an exact reallocator). -/
def Inv (R : Reallocator) (s : InteropOutputStream) : Prop :=
  s.pos ≤ s.cap ∧ CapInv R s

/-- After the step from `s` to `t` the capacity (the cached one and the one of the region) is
at least one more than the capacity of the region of `s`, and every byte of the region below the
cursor of `s` is unchanged. -/
def GrownBeyond (s t : InteropOutputStream) : Prop :=
  s.mem.capacity + 1 ≤ t.cap ∧ s.mem.capacity + 1 ≤ t.mem.capacity ∧
  ∀ i : Int, 0 ≤ i → i < s.pos → t.mem.data i = s.mem.data i

/-- Postcondition of a patch write of the `width`-byte scalar `v` at offset `o` that takes `s`
to `t` on host `h`: the cursor is where it was, and the bytes at `o .. o + width - 1` are the
object representation of `v` (on a little-endian host, its little-endian encoding). -/
def PatchPost (h : Endian) (s t : InteropOutputStream) (o : Int) (width : Nat) (v : Int) : Prop :=
  t.pos = s.pos ∧ ∀ i : Nat, i < width → t.mem.data (o + i) = hostByte h width v i

/-- Postcondition of a patch write of the `width`-byte scalar `v` at offset `o` that takes `s`
to `t`, with the bytes in the layout of the interoperability format: the cursor is where it was,
and the bytes at `o .. o + width - 1` are the little-endian encoding of `v` (byte `i` is
`(v >> 8*i) & 0xFF`). -/
def PatchPostLE (s t : InteropOutputStream) (o : Int) (width : Nat) (v : Int) : Prop :=
  t.pos = s.pos ∧ ∀ i : Nat, i < width → t.mem.data (o + i) = leByte v i

/-- Modelled from the spec: the matching reader of an unsigned scalar (the input stream of the
repository is not among the sources): the `width` bytes at offset `p` read as a little-endian
unsigned integer. -/
def readUnsignedLE (data : Int → Nat) (p : Int) (width : Nat) : Nat :=
  loadLE width (fun i => data (p + i))

/-- Modelled from the spec: the matching reader of a signed scalar: the `width` bytes at offset
`p` read as a little-endian two's-complement integer. -/
def readSignedLE (data : Int → Nat) (p : Int) (width : Nat) : Int :=
  asSigned width (readUnsignedLE data p width)

/-- Modelled from the spec: the matching reader of a `bool`: the byte at offset `p` is not 0. -/
def readBool (data : Int → Nat) (p : Int) : Bool :=
  data p != 0

/-- The IEEE-754 bit pattern of a `float` reinterpreted as an `int32_t`. -/
def bits32 (f : Nat) : Int := asSigned 4 (f % 4294967296)

/-- The IEEE-754 bit pattern of a `double` reinterpreted as an `int64_t`. -/
def bits64 (d : Nat) : Int := asSigned 8 (d % 18446744073709551616)

/-- Postcondition of the bulk copy of `len` bytes from `src + off` that takes `s` to `t`: the
capacity has been ensured before the copy (a reallocation, if any, precedes the one store),
byte `p + i` equals `src[off + i]` for `0 <= i < len`, the cursor is at `p + len`, and the bytes
below `p` are unchanged. -/
def CopyPost (R : Reallocator) (s t : InteropOutputStream) (src : Int → Nat) (off len : Int) :
    Prop :=
  s.pos + len ≤ t.cap ∧
  newEvents s t =
    newEvents s (InteropOutputStream.EnsureCapacity R s (s.pos + len)) ++
      [MemEvent.store s.pos len.toNat] ∧
  (∀ i : Int, 0 ≤ i → i < len → t.mem.data (s.pos + i) = src (off + i)) ∧
  t.pos = s.pos + len ∧
  ∀ i : Int, 0 ≤ i → i < s.pos → t.mem.data i = s.mem.data i

/-- The calls of one operation on the elements `val[0], ..., val[len-1]` of an array, in index
order; `mk i` is the call for element number `i`. -/
def elementOps (len : Int) (mk : Int → Op) : List Op :=
  (List.range len.toNat).map (fun (i : Nat) => mk (i : Int))

/-- Modelled from the spec: a `Reallocate` that leaves the logical length of the region alone
(the length "records the logical number of valid bytes, independent of capacity"). -/
def Reallocator.KeepsLength (R : Reallocator) : Prop :=
  ∀ (m : InteropMemory) (n : Int), (R m n).length = m.length

/-- Modelled from the spec: a `Reallocate` that "grows the backing allocation", i.e. never
leaves the region with less capacity than it had. -/
def Reallocator.Grows (R : Reallocator) : Prop :=
  ∀ (m : InteropMemory) (n : Int), m.capacity ≤ (R m n).capacity

/-- A reallocator that never shrinks the region: the new capacity is the larger of the old
capacity and the requested one; the bytes and the length are kept. -/
def growingReallocate : Reallocator := fun m n => { m with capacity := max m.capacity n }

/-- Frame of a patch write of `width` bytes at offset `o` that takes `s` to `t`: no byte
outside `[o, o + width)` changes, and neither do the capacity (the cached one and the one of the
region) and the cursor. -/
def PatchFrame (s t : InteropOutputStream) (o : Int) (width : Nat) : Prop :=
  (∀ i : Int, ¬ (o ≤ i ∧ i < o + width) → t.mem.data i = s.mem.data i) ∧
  t.cap = s.cap ∧ t.pos = s.pos ∧ t.mem.capacity = s.mem.capacity

/-- The offset returned by `Reserve(n)` on `s`, and the stream after that reservation and the
further operations `ops`. -/
def afterReserve (R : Reallocator) (h : Endian) (s : InteropOutputStream) (n : Int)
    (ops : List Op) : Int × InteropOutputStream :=
  ((InteropOutputStream.Reserve R s n).1, run R h (InteropOutputStream.Reserve R s n).2 ops)

/-- Every byte at an offset `>= start` has in `t` the value it has in `s`. -/
def KeptFrom (s t : InteropOutputStream) (start : Int) : Prop :=
  ∀ i : Int, start ≤ i → t.mem.data i = s.mem.data i

/-- The bulk write that produced `bulk` and the element-wise writes that produced `elem` agree:
same cursor, and the same bytes at the offsets in `[0, cursor)`. -/
def BulkAgrees (bulk elem : InteropOutputStream) : Prop :=
  bulk.pos = elem.pos ∧ ∀ i : Int, 0 ≤ i → i < bulk.pos → bulk.mem.data i = elem.mem.data i

/-- The step from `s` to `t` copies `count` bytes to the cursor of `s` in one `memcpy`, after
the capacity for them has been ensured, and stores nothing else. -/
def CopiesBytes (R : Reallocator) (s t : InteropOutputStream) (count : Int) : Prop :=
  newEvents s t =
    newEvents s (InteropOutputStream.EnsureCapacity R s (wrap32 (s.pos + count))) ++
      [MemEvent.store s.pos count.toNat]

open InteropOutputStream

/-! ## General facts -/

section lemmas

variable (R : Reallocator) (h : Endian) (s : InteropOutputStream)

theorem exactReallocate_conforms : Reallocator.Conforms exactReallocate := by
  intro m n
  exact ⟨le_refl _, fun _ _ _ => rfl⟩

theorem exactReallocate_exact : Reallocator.Exact exactReallocate := fun _ _ => rfl

theorem granuleReallocate_conforms : Reallocator.Conforms granuleReallocate := by
  intro m n
  refine ⟨?_, fun _ _ _ => rfl⟩
  show n ≤ (n + 15) / 16 * 16
  omega

@[simp] theorem EnsureCapacity_pos (reqCap : Int) : (EnsureCapacity R s reqCap).pos = s.pos := by
  unfold EnsureCapacity
  split <;> rfl

theorem EnsureCapacity_cap_ge (reqCap : Int) : reqCap ≤ (EnsureCapacity R s reqCap).cap := by
  unfold EnsureCapacity
  split
  · dsimp only
    split <;> omega
  · omega

theorem EnsureCapacity_cap_mono (reqCap : Int) : s.cap ≤ (EnsureCapacity R s reqCap).cap := by
  unfold EnsureCapacity
  split
  · dsimp only
    split <;> omega
  · omega

theorem EnsureCapacity_capacity (hR : R.Conforms) (reqCap : Int)
    (hc : s.cap ≤ s.mem.capacity) :
    (EnsureCapacity R s reqCap).cap ≤ (EnsureCapacity R s reqCap).mem.capacity := by
  unfold EnsureCapacity
  split
  · exact (hR _ _).1
  · exact hc

theorem EnsureCapacity_capacity_eq (hR : R.Exact) (reqCap : Int)
    (hc : s.cap = s.mem.capacity) :
    (EnsureCapacity R s reqCap).cap = (EnsureCapacity R s reqCap).mem.capacity := by
  unfold EnsureCapacity
  split
  · exact (hR _ _).symm
  · exact hc

theorem EnsureCapacity_data (hR : R.Conforms) (reqCap : Int) (i : Int) (h0 : 0 ≤ i)
    (hi : i < s.mem.capacity) : (EnsureCapacity R s reqCap).mem.data i = s.mem.data i := by
  unfold EnsureCapacity
  split
  · exact (hR _ _).2 i h0 hi
  · rfl

@[simp] theorem store_pos (off : Int) (size : Nat) (val : Int) :
    (store s h off size val).pos = s.pos := rfl

@[simp] theorem store_cap (off : Int) (size : Nat) (val : Int) :
    (store s h off size val).cap = s.cap := rfl

@[simp] theorem store_capacity (off : Int) (size : Nat) (val : Int) :
    (store s h off size val).mem.capacity = s.mem.capacity := rfl

@[simp] theorem memcpy_pos (dst : Int) (src : Int → Nat) (count : Nat) :
    (memcpy s dst src count).pos = s.pos := rfl

@[simp] theorem memcpy_cap (dst : Int) (src : Int → Nat) (count : Nat) :
    (memcpy s dst src count).cap = s.cap := rfl

@[simp] theorem memcpy_capacity (dst : Int) (src : Int → Nat) (count : Nat) :
    (memcpy s dst src count).mem.capacity = s.mem.capacity := rfl

@[simp] theorem Shift_pos (cnt : Int) : (Shift s cnt).pos = wrap32 (s.pos + cnt) := rfl

@[simp] theorem Shift_cap (cnt : Int) : (Shift s cnt).cap = s.cap := rfl

@[simp] theorem Shift_mem (cnt : Int) : (Shift s cnt).mem = s.mem := rfl

theorem CapInv_EnsureCapacity (hR : R.Conforms) (reqCap : Int) (hs : CapInv R s) :
    CapInv R (EnsureCapacity R s reqCap) :=
  ⟨le_trans hs.1 (EnsureCapacity_cap_mono R s reqCap),
    EnsureCapacity_capacity R s hR reqCap hs.2.1,
    fun hE => EnsureCapacity_capacity_eq R s hE reqCap (hs.2.2 hE)⟩

theorem CapInv_of_eq {s t : InteropOutputStream} (hc : t.cap = s.cap)
    (hm : t.mem.capacity = s.mem.capacity) (hs : CapInv R s) : CapInv R t := by
  unfold CapInv
  rw [hc, hm]
  exact hs

theorem forLoop_induction (P : InteropOutputStream → Prop)
    (body : InteropOutputStream → Int → InteropOutputStream)
    (hbody : ∀ t i, P t → P (body t i)) (len : Int) (hs : P s) : P (forLoop len body s) := by
  unfold forLoop
  generalize List.range len.toNat = l
  induction l generalizing s with
  | nil => exact hs
  | cons a l ih => exact ih (body s a) (hbody s a hs)

theorem Inv_OUT_WRITE (hR : R.Conforms) (val : Int) (size : Nat) (len : Int) (hs : Inv R s) :
    Inv R (IGNITE_INTEROP_OUT_WRITE R h s val size len) := by
  refine ⟨?_, ?_⟩
  · simp only [IGNITE_INTEROP_OUT_WRITE, Shift_pos, Shift_cap, store_pos, store_cap,
      EnsureCapacity_pos]
    exact EnsureCapacity_cap_ge R s _
  · exact CapInv_of_eq R rfl rfl (CapInv_EnsureCapacity R s hR _ hs.2)

theorem Inv_CopyAndShift (hR : R.Conforms) (src : Int → Nat) (off len : Int) (hs : Inv R s) :
    Inv R (CopyAndShift R s src off len) := by
  refine ⟨?_, ?_⟩
  · simp only [CopyAndShift, Shift_pos, Shift_cap, memcpy_pos, memcpy_cap, EnsureCapacity_pos]
    exact EnsureCapacity_cap_ge R s _
  · exact CapInv_of_eq R rfl rfl (CapInv_EnsureCapacity R s hR _ hs.2)

theorem Inv_patch (hR : R.Conforms) (reqCap off : Int) (size : Nat) (val : Int)
    (hs : Inv R s) : Inv R (store (EnsureCapacity R s reqCap) h off size val) := by
  refine ⟨?_, ?_⟩
  · simp only [store_pos, store_cap, EnsureCapacity_pos]
    exact le_trans hs.1 (EnsureCapacity_cap_mono R s _)
  · exact CapInv_of_eq R rfl rfl (CapInv_EnsureCapacity R s hR _ hs.2)

theorem Inv_PositionSet (hR : R.Conforms) (val : Int) (hs : Inv R s) :
    Inv R (PositionSet R s val) := by
  refine ⟨?_, ?_⟩
  · exact EnsureCapacity_cap_ge R s _
  · exact CapInv_of_eq R rfl rfl (CapInv_EnsureCapacity R s hR _ hs.2)

theorem Inv_Reserve (hR : R.Conforms) (num : Int) (hs : Inv R s) :
    Inv R (Reserve R s num).2 := by
  refine ⟨?_, ?_⟩
  · simp only [Reserve, Shift_pos, Shift_cap, EnsureCapacity_pos]
    exact EnsureCapacity_cap_ge R s _
  · exact CapInv_of_eq R rfl rfl (CapInv_EnsureCapacity R s hR _ hs.2)

theorem Inv_Synchronize (hs : Inv R s) : Inv R (Synchronize s) :=
  ⟨hs.1, CapInv_of_eq R rfl rfl hs.2⟩

theorem Inv_apply (hR : R.Conforms) (op : Op) (hs : Inv R s) : Inv R (op.apply R h s) := by
  cases op with
  | WriteInt8 val => exact Inv_OUT_WRITE R h s hR _ _ _ hs
  | WriteInt8At val pos => exact Inv_patch R h s hR _ _ _ _ hs
  | WriteInt8Array val len => exact Inv_CopyAndShift R s hR _ _ _ hs
  | WriteBool val => exact Inv_OUT_WRITE R h s hR _ _ _ hs
  | WriteBoolArray val len =>
    exact forLoop_induction s (Inv R) _ (fun t _ ht => Inv_OUT_WRITE R h t hR _ _ _ ht) len hs
  | WriteInt16 val => exact Inv_OUT_WRITE R h s hR _ _ _ hs
  | WriteInt16At pos val => exact Inv_patch R h s hR _ _ _ _ hs
  | WriteInt16Array val len => exact Inv_CopyAndShift R s hR _ _ _ hs
  | WriteUInt16 val => exact Inv_OUT_WRITE R h s hR _ _ _ hs
  | WriteUInt16Array val len => exact Inv_CopyAndShift R s hR _ _ _ hs
  | WriteInt32 val => exact Inv_OUT_WRITE R h s hR _ _ _ hs
  | WriteInt32At pos val => exact Inv_patch R h s hR _ _ _ _ hs
  | WriteInt32Array val len => exact Inv_CopyAndShift R s hR _ _ _ hs
  | WriteInt64 val => exact Inv_OUT_WRITE R h s hR _ _ _ hs
  | WriteInt64At pos val => exact Inv_patch R h s hR _ _ _ _ hs
  | WriteInt64Array val len => exact Inv_CopyAndShift R s hR _ _ _ hs
  | WriteFloat val => exact Inv_OUT_WRITE R h s hR _ _ _ hs
  | WriteFloatArray val len =>
    exact forLoop_induction s (Inv R) _ (fun t _ ht => Inv_OUT_WRITE R h t hR _ _ _ ht) len hs
  | WriteDouble val => exact Inv_OUT_WRITE R h s hR _ _ _ hs
  | WriteDoubleArray val len =>
    exact forLoop_induction s (Inv R) _ (fun t _ ht => Inv_OUT_WRITE R h t hR _ _ _ ht) len hs
  | Position val => exact Inv_PositionSet R s hR _ hs
  | Reserve num => exact Inv_Reserve R s hR _ hs
  | Synchronize => exact Inv_Synchronize R s hs

theorem Inv_run (hR : R.Conforms) (ops : List Op) (hs : Inv R s) : Inv R (run R h s ops) := by
  unfold run
  induction ops generalizing s with
  | nil => exact hs
  | cons op ops ih => exact ih (op.apply R h s) (Inv_apply R h s hR op hs)

theorem Inv_new (mem : InteropMemory) (hm : 0 ≤ mem.capacity) :
    Inv R (InteropOutputStream.new mem) :=
  ⟨hm, hm, le_refl _, fun _ => rfl⟩

theorem Reachable.inv {R : Reallocator} {h : Endian} {s : InteropOutputStream}
    (hR : R.Conforms) (hs : Reachable R h s) :
    s.pos ≤ s.cap ∧ 0 ≤ s.cap ∧ s.cap ≤ s.mem.capacity := by
  obtain ⟨mem, ops, hm, rfl⟩ := hs
  have key := Inv_run R h _ hR ops (Inv_new R mem hm)
  exact ⟨key.1, key.2.1, key.2.2.1⟩

theorem store_data (off : Int) (size : Nat) (val : Int) (i : Int) :
    (store s h off size val).mem.data i =
      if off ≤ i ∧ i < off + size then hostByte h size val (i - off).toNat
      else s.mem.data i := rfl

theorem memcpy_data (dst : Int) (src : Int → Nat) (count : Nat) (i : Int) :
    (memcpy s dst src count).mem.data i =
      if dst ≤ i ∧ i < dst + count then src (i - dst) else s.mem.data i := rfl

theorem OUT_WRITE_data (val : Int) (size : Nat) (len : Int) (i : Int) :
    (IGNITE_INTEROP_OUT_WRITE R h s val size len).mem.data i =
      if s.pos ≤ i ∧ i < s.pos + size then hostByte h size val (i - s.pos).toNat
      else (EnsureCapacity R s (wrap32 (s.pos + len))).mem.data i := by
  simp only [IGNITE_INTEROP_OUT_WRITE, Shift_mem, store_data, EnsureCapacity_pos]

theorem CopyAndShift_data (src : Int → Nat) (off len : Int) (i : Int) :
    (CopyAndShift R s src off len).mem.data i =
      if s.pos ≤ i ∧ i < s.pos + toSizeT len then src (off + (i - s.pos))
      else (EnsureCapacity R s (wrap32 (s.pos + len))).mem.data i := by
  simp only [CopyAndShift, Shift_mem, memcpy_data, EnsureCapacity_pos]

/-- Bytes below the cursor survive an append write of a scalar. -/
theorem OUT_WRITE_data_below (hR : R.Conforms) (val : Int) (size : Nat) (len : Int) (i : Int)
    (h0 : 0 ≤ i) (hi : i < s.pos) (hc : s.pos ≤ s.mem.capacity) :
    (IGNITE_INTEROP_OUT_WRITE R h s val size len).mem.data i = s.mem.data i := by
  rw [OUT_WRITE_data, if_neg (by omega)]
  exact EnsureCapacity_data R s hR _ i h0 (by omega)

/-- Bytes below the cursor survive a bulk copy. -/
theorem CopyAndShift_data_below (hR : R.Conforms) (src : Int → Nat) (off len : Int) (i : Int)
    (h0 : 0 ≤ i) (hi : i < s.pos) (hc : s.pos ≤ s.mem.capacity) :
    (CopyAndShift R s src off len).mem.data i = s.mem.data i := by
  rw [CopyAndShift_data, if_neg (by omega)]
  exact EnsureCapacity_data R s hR _ i h0 (by omega)

end lemmas

/-! ## C1: the capacity invariant -/

/-- C1 (as amended): from a stream constructed over a region of non-negative capacity whose
`Reallocate` meets its contract, after any finite sequence of operations (append writes, array
writes, patch writes, `Position(n)`, `Reserve(n)`, `Synchronize()`) the cursor satisfies
`pos <= cap`, the cached `cap` is at most the capacity of the region, and `cap` equals the
capacity of the region when `Reallocate` allocates exactly what it is asked for. -/
theorem capacity_invariant (R : Reallocator) (h : Endian) (mem : InteropMemory) (ops : List Op)
    (hR : R.Conforms) (hm : 0 ≤ mem.capacity) :
    let s := run R h (InteropOutputStream.new mem) ops
    s.pos ≤ s.cap ∧ s.cap ≤ s.mem.capacity ∧ (R.Exact → s.cap = s.mem.capacity) := by
  intro s
  have key := Inv_run R h _ hR ops (Inv_new R mem hm)
  exact ⟨key.1, key.2.2.1, key.2.2.2⟩

/-- Witness of `capacity_invariant`: a one-byte write, a patch and a reservation on an empty
region with an exact reallocator. -/
theorem capacity_invariant_witness :
    exactReallocate.Conforms ∧ (0 : Int) ≤ (zeroMemory 0).capacity ∧
    (let s := run exactReallocate Endian.little (InteropOutputStream.new (zeroMemory 0))
        [Op.WriteInt8 7, Op.WriteInt32At 0 1, Op.Reserve 4]
     s.pos ≤ s.cap ∧ s.cap ≤ s.mem.capacity ∧
      (exactReallocate.Exact → s.cap = s.mem.capacity)) :=
  ⟨exactReallocate_conforms, le_refl _,
    capacity_invariant exactReallocate Endian.little (zeroMemory 0)
      [Op.WriteInt8 7, Op.WriteInt32At 0 1, Op.Reserve 4] exactReallocate_conforms (le_refl _)⟩

/-- C1 as stated fails: with a reallocator that meets the contract of the region but rounds the
allocation up to a 16-byte granule, one `WriteInt8` on an empty region leaves `cap = 1` while the
capacity of the region is 16. -/
theorem capacity_invariant_counterexample :
    granuleReallocate.Conforms ∧
    (run granuleReallocate Endian.little (InteropOutputStream.new (zeroMemory 0))
        [Op.WriteInt8 7]).cap = 1 ∧
    (run granuleReallocate Endian.little (InteropOutputStream.new (zeroMemory 0))
        [Op.WriteInt8 7]).mem.capacity = 16 ∧
    ¬ ((run granuleReallocate Endian.little (InteropOutputStream.new (zeroMemory 0))
        [Op.WriteInt8 7]).cap =
      (run granuleReallocate Endian.little (InteropOutputStream.new (zeroMemory 0))
        [Op.WriteInt8 7]).mem.capacity) := by
  refine ⟨granuleReallocate_conforms, ?_, ?_, ?_⟩ <;> decide

/-! ## C2: stores stay inside the capacity -/

section c2

variable (R : Reallocator) (h : Endian) (s : InteropOutputStream)

theorem wrap32_of_range (x : Int) (h0 : -2147483648 ≤ x) (h1 : x ≤ 2147483647) :
    wrap32 x = x := by
  unfold wrap32
  omega

theorem EnsureCapacity_newEvents (reqCap : Int) :
    ∀ e ∈ newEvents s (EnsureCapacity R s reqCap), ∀ i, e.covers i = false := by
  unfold EnsureCapacity newEvents
  split
  · simp [MemEvent.covers]
  · simp

theorem EnsureCapacity_trace (reqCap : Int) :
    (EnsureCapacity R s reqCap).trace = s.trace ++ newEvents s (EnsureCapacity R s reqCap) := by
  unfold EnsureCapacity newEvents
  split <;> simp

theorem touches_after_ensure (reqCap : Int) (t : InteropOutputStream) (off : Int) (count : Nat)
    (ht : t.trace = (EnsureCapacity R s reqCap).trace ++ [MemEvent.store off count]) (i : Int)
    (hi : Touches s t i) : off ≤ i ∧ i < off + count := by
  obtain ⟨e, he, hc⟩ := hi
  unfold newEvents at he
  rw [ht, EnsureCapacity_trace, List.append_assoc, List.drop_left] at he
  rcases List.mem_append.1 he with he | he
  · rw [EnsureCapacity_newEvents R s reqCap e he i] at hc
    exact absurd hc (by decide)
  · rw [List.mem_singleton.1 he] at hc
    simpa [MemEvent.covers] using hc

theorem StoresWithin_OUT_WRITE (val : Int) (size : Nat) (hp : 0 ≤ s.pos)
    (hlen : s.pos + size ≤ INT32_MAX) :
    StoresWithin s (IGNITE_INTEROP_OUT_WRITE R h s val size size) := by
  intro i hi
  have hb := touches_after_ensure R s (wrap32 (s.pos + size))
    (IGNITE_INTEROP_OUT_WRITE R h s val size size) s.pos size
    (by simp [IGNITE_INTEROP_OUT_WRITE, Shift, store]) i hi
  have hc := EnsureCapacity_cap_ge R s (wrap32 (s.pos + size))
  unfold INT32_MAX at hlen
  rw [wrap32_of_range _ (by omega) hlen] at hc
  have : (IGNITE_INTEROP_OUT_WRITE R h s val size size).cap =
      (EnsureCapacity R s (wrap32 (s.pos + size))).cap := rfl
  rw [this, wrap32_of_range _ (by omega) hlen]
  omega

theorem toSizeT_of_nonneg (len : Int) (h0 : 0 ≤ len) (h1 : len < 18446744073709551616) :
    (toSizeT len : Int) = len := by
  unfold toSizeT
  omega

theorem StoresWithin_CopyAndShift (src : Int → Nat) (off len : Int) (hp : 0 ≤ s.pos)
    (h0 : 0 ≤ len) (hlen : s.pos + len ≤ INT32_MAX) :
    StoresWithin s (CopyAndShift R s src off len) := by
  intro i hi
  have hb := touches_after_ensure R s (wrap32 (s.pos + len))
    (CopyAndShift R s src off len) s.pos (toSizeT len)
    (by simp [CopyAndShift, Shift, memcpy]) i hi
  have hc := EnsureCapacity_cap_ge R s (wrap32 (s.pos + len))
  unfold INT32_MAX at hlen
  have hsz := toSizeT_of_nonneg len h0 (by omega)
  rw [wrap32_of_range _ (by omega) hlen] at hc
  have : (CopyAndShift R s src off len).cap =
      (EnsureCapacity R s (wrap32 (s.pos + len))).cap := rfl
  rw [this, wrap32_of_range _ (by omega) hlen]
  omega

theorem StoresWithin_patch (off : Int) (size : Nat) (val : Int) (hp : 0 ≤ off)
    (hlen : off + size ≤ INT32_MAX) :
    StoresWithin s (store (EnsureCapacity R s (wrap32 (off + size))) h off size val) := by
  intro i hi
  have hb := touches_after_ensure R s (wrap32 (off + size))
    (store (EnsureCapacity R s (wrap32 (off + size))) h off size val) off size
    (by simp [store]) i hi
  have hc := EnsureCapacity_cap_ge R s (wrap32 (off + size))
  unfold INT32_MAX at hlen
  rw [wrap32_of_range _ (by omega) hlen] at hc
  rw [store_cap, wrap32_of_range _ (by omega) hlen]
  omega

end c2

/-- C2 (as amended): on a stream whose cursor is not negative, every append write of a scalar
whose end `pos + width` does not exceed `INT32_MAX`, every bulk copy `CopyAndShift` with
`len >= 0` and `pos + len <= INT32_MAX`, and every patch write at an offset `o >= 0` with
`o + width <= INT32_MAX` stores only to bytes at offsets in `[0, cap)`, where `cap` is the
capacity after the `EnsureCapacity` call of the operation. -/
theorem stores_within_capacity (R : Reallocator) (h : Endian) (s : InteropOutputStream) :
    (0 ≤ s.pos → s.pos + 1 ≤ INT32_MAX →
      (∀ v, StoresWithin s (WriteInt8 R h s v)) ∧ (∀ b, StoresWithin s (WriteBool R h s b))) ∧
    (0 ≤ s.pos → s.pos + 2 ≤ INT32_MAX →
      (∀ v, StoresWithin s (WriteInt16 R h s v)) ∧ (∀ v, StoresWithin s (WriteUInt16 R h s v))) ∧
    (0 ≤ s.pos → s.pos + 4 ≤ INT32_MAX →
      (∀ v, StoresWithin s (WriteInt32 R h s v)) ∧ (∀ f, StoresWithin s (WriteFloat R h s f))) ∧
    (0 ≤ s.pos → s.pos + 8 ≤ INT32_MAX →
      (∀ v, StoresWithin s (WriteInt64 R h s v)) ∧ (∀ d, StoresWithin s (WriteDouble R h s d))) ∧
    (∀ src off len, 0 ≤ s.pos → 0 ≤ len → s.pos + len ≤ INT32_MAX →
      StoresWithin s (CopyAndShift R s src off len)) ∧
    (∀ o v, 0 ≤ o → o + 1 ≤ INT32_MAX → StoresWithin s (WriteInt8At R h s v o)) ∧
    (∀ o v, 0 ≤ o → o + 2 ≤ INT32_MAX → StoresWithin s (WriteInt16At R h s o v)) ∧
    (∀ o v, 0 ≤ o → o + 4 ≤ INT32_MAX → StoresWithin s (WriteInt32At R h s o v)) ∧
    (∀ o v, 0 ≤ o → o + 8 ≤ INT32_MAX → StoresWithin s (WriteInt64At R h s o v)) := by
  refine ⟨fun hp hl => ⟨fun v => ?_, fun b => ?_⟩, fun hp hl => ⟨fun v => ?_, fun v => ?_⟩,
    fun hp hl => ⟨fun v => ?_, fun f => ?_⟩, fun hp hl => ⟨fun v => ?_, fun d => ?_⟩,
    fun src off len hp h0 hl => StoresWithin_CopyAndShift R s src off len hp h0 hl,
    fun o v h0 hl => ?_, fun o v h0 hl => ?_, fun o v h0 hl => ?_, fun o v h0 hl => ?_⟩
  · exact StoresWithin_OUT_WRITE R h s v 1 hp hl
  · exact StoresWithin_OUT_WRITE R h s _ 1 hp hl
  · exact StoresWithin_OUT_WRITE R h s v 2 hp hl
  · exact StoresWithin_OUT_WRITE R h s v 2 hp hl
  · exact StoresWithin_OUT_WRITE R h s v 4 hp hl
  · exact StoresWithin_OUT_WRITE R h s _ 4 hp hl
  · exact StoresWithin_OUT_WRITE R h s v 8 hp hl
  · exact StoresWithin_OUT_WRITE R h s _ 8 hp hl
  · exact StoresWithin_patch R h s o 1 v h0 hl
  · exact StoresWithin_patch R h s o 2 v h0 hl
  · exact StoresWithin_patch R h s o 4 v h0 hl
  · exact StoresWithin_patch R h s o 8 v h0 hl

/-- Witness of `stores_within_capacity`: a four-byte patch at offset 4 of a fresh stream over a
region of 2 bytes, which has to grow. -/
theorem stores_within_capacity_witness :
    (0 : Int) ≤ 4 ∧ (4 : Int) + 4 ≤ INT32_MAX ∧
    StoresWithin (InteropOutputStream.new (zeroMemory 2))
      (WriteInt32At exactReallocate Endian.little (InteropOutputStream.new (zeroMemory 2)) 4 258) :=
  ⟨by decide, by decide,
    (stores_within_capacity exactReallocate Endian.little
      (InteropOutputStream.new (zeroMemory 2))).2.2.2.2.2.2.2.1 4 258 (by decide) (by decide)⟩

/-- C2 as stated fails in each of the ways the code leaves unchecked, here on streams over a
region of 16 bytes. A patch with a negative offset: `WriteInt32(-1, 258)` stores to the byte at
offset `-1`. A bulk copy with a negative length: `CopyAndShift(src, 0, -1)` asks `memcpy` for
`2^64 - 1` bytes and stores to the byte at offset 16, past the capacity 16. An append write at
a negative cursor: after `Position(-1)`, `WriteInt8` stores to the byte at offset `-1`. An
append write whose end overflows: after `Position(2147483647)`, `WriteInt8` stores to the byte
at offset `2147483647`, which is not below the capacity `2147483647`. -/
theorem stores_within_capacity_counterexample :
    (Touches (InteropOutputStream.new (zeroMemory 16))
      (WriteInt32At exactReallocate Endian.little (InteropOutputStream.new (zeroMemory 16))
        (-1) 258) (-1) ∧
     ¬ StoresWithin (InteropOutputStream.new (zeroMemory 16))
      (WriteInt32At exactReallocate Endian.little (InteropOutputStream.new (zeroMemory 16))
        (-1) 258)) ∧
    ((CopyAndShift exactReallocate (InteropOutputStream.new (zeroMemory 16))
        (fun _ => 5) 0 (-1)).cap = 16 ∧
     ¬ StoresWithin (InteropOutputStream.new (zeroMemory 16))
      (CopyAndShift exactReallocate (InteropOutputStream.new (zeroMemory 16))
        (fun _ => 5) 0 (-1))) ∧
    ¬ StoresWithin
      (run exactReallocate Endian.little (InteropOutputStream.new (zeroMemory 16))
        [Op.Position (-1)])
      (WriteInt8 exactReallocate Endian.little
        (run exactReallocate Endian.little (InteropOutputStream.new (zeroMemory 16))
          [Op.Position (-1)]) 7) ∧
    ((WriteInt8 exactReallocate Endian.little
        (run exactReallocate Endian.little (InteropOutputStream.new (zeroMemory 16))
          [Op.Position 2147483647]) 7).cap = 2147483647 ∧
     ¬ StoresWithin
      (run exactReallocate Endian.little (InteropOutputStream.new (zeroMemory 16))
        [Op.Position 2147483647])
      (WriteInt8 exactReallocate Endian.little
        (run exactReallocate Endian.little (InteropOutputStream.new (zeroMemory 16))
          [Op.Position 2147483647]) 7)) := by
  have h1 : Touches (InteropOutputStream.new (zeroMemory 16))
      (WriteInt32At exactReallocate Endian.little (InteropOutputStream.new (zeroMemory 16))
        (-1) 258) (-1) := ⟨MemEvent.store (-1) 4, by decide, by decide⟩
  have h2 : Touches (InteropOutputStream.new (zeroMemory 16))
      (CopyAndShift exactReallocate (InteropOutputStream.new (zeroMemory 16))
        (fun _ => 5) 0 (-1)) 16 :=
    ⟨MemEvent.store 0 18446744073709551615, by decide, by decide⟩
  have h3 : Touches
      (run exactReallocate Endian.little (InteropOutputStream.new (zeroMemory 16))
        [Op.Position (-1)])
      (WriteInt8 exactReallocate Endian.little
        (run exactReallocate Endian.little (InteropOutputStream.new (zeroMemory 16))
          [Op.Position (-1)]) 7) (-1) := ⟨MemEvent.store (-1) 1, by decide, by decide⟩
  have h4 : Touches
      (run exactReallocate Endian.little (InteropOutputStream.new (zeroMemory 16))
        [Op.Position 2147483647])
      (WriteInt8 exactReallocate Endian.little
        (run exactReallocate Endian.little (InteropOutputStream.new (zeroMemory 16))
          [Op.Position 2147483647]) 7) 2147483647 :=
    ⟨MemEvent.store 2147483647 1, by decide, by decide⟩
  refine ⟨⟨h1, fun hw => absurd (hw (-1) h1).1 (by decide)⟩,
    ⟨by decide, fun hw => absurd (hw 16 h2).2 (by decide)⟩,
    fun hw => absurd (hw (-1) h3).1 (by decide),
    ⟨by decide, fun hw => absurd (hw 2147483647 h4).2 (by decide)⟩⟩

/-! ## C3: the growth policy -/

/-- C3: growth policy of `EnsureCapacity(reqCap)`. For a capacity `cap >= 0` whose double does
not overflow 32 bits: if `reqCap <= cap` the stream is unchanged (so is its capacity) and
`Reallocate` is not called; if `reqCap > cap` the new capacity is exactly
`max (2 * cap) reqCap`, and `Reallocate` is called exactly once, with that value. -/
theorem EnsureCapacity_growth_policy (R : Reallocator) (s : InteropOutputStream) (reqCap : Int)
    (h0 : 0 ≤ s.cap) (hov : s.cap * 2 ≤ INT32_MAX) :
    (reqCap ≤ s.cap →
      EnsureCapacity R s reqCap = s ∧ (EnsureCapacity R s reqCap).cap = s.cap ∧
      newEvents s (EnsureCapacity R s reqCap) = []) ∧
    (s.cap < reqCap →
      (EnsureCapacity R s reqCap).cap = max (2 * s.cap) reqCap ∧
      newEvents s (EnsureCapacity R s reqCap) = [MemEvent.reallocate (max (2 * s.cap) reqCap)] ∧
      (EnsureCapacity R s reqCap).mem = R s.mem (max (2 * s.cap) reqCap)) := by
  unfold INT32_MAX at hov
  have hw : wrap32 (s.cap * 2) = 2 * s.cap := by
    rw [wrap32_of_range _ (by omega) hov]
    ring
  constructor
  · intro hle
    have hn : ¬ reqCap > s.cap := by omega
    simp [EnsureCapacity, hn, newEvents]
  · intro hlt
    have hg : reqCap > s.cap := hlt
    by_cases hd : 2 * s.cap < reqCap
    · have hm : max (2 * s.cap) reqCap = reqCap := max_eq_right (le_of_lt hd)
      simp [EnsureCapacity, hg, hw, hd, hm, newEvents]
    · have hm : max (2 * s.cap) reqCap = 2 * s.cap := max_eq_left (not_lt.1 hd)
      simp [EnsureCapacity, hg, hw, hd, hm, newEvents]

/-- Witness of `EnsureCapacity_growth_policy`: a stream of capacity 0 asked for 5 bytes. -/
theorem EnsureCapacity_growth_policy_witness :
    (0 : Int) ≤ (InteropOutputStream.new (zeroMemory 0)).cap ∧
    (InteropOutputStream.new (zeroMemory 0)).cap * 2 ≤ INT32_MAX ∧
    (InteropOutputStream.new (zeroMemory 0)).cap < 5 ∧
    (EnsureCapacity exactReallocate (InteropOutputStream.new (zeroMemory 0)) 5).cap =
      max (2 * (InteropOutputStream.new (zeroMemory 0)).cap) 5 :=
  ⟨by decide, by decide, by decide,
    ((EnsureCapacity_growth_policy exactReallocate (InteropOutputStream.new (zeroMemory 0)) 5
      (by decide) (by decide)).2 (by decide)).1⟩

/-! ## C4: growth keeps what was written -/

section c4

variable (R : Reallocator) (h : Endian) (s : InteropOutputStream)

theorem GrownBeyond_OUT_WRITE (hR : R.Conforms) (hs : Reachable R h s)
    (hC : s.mem.capacity + 1 ≤ INT32_MAX) (val : Int) (size : Nat)
    (hreq : s.pos + size = s.mem.capacity + 1) :
    GrownBeyond s (IGNITE_INTEROP_OUT_WRITE R h s val size size) := by
  obtain ⟨hpos, hcap0, hcap⟩ := hs.inv hR
  unfold INT32_MAX at hC
  have hge := EnsureCapacity_cap_ge R s (wrap32 (s.pos + size))
  have hle := EnsureCapacity_capacity R s hR (wrap32 (s.pos + size)) hcap
  rw [wrap32_of_range _ (by omega) (by omega)] at hge hle
  refine ⟨?_, ?_, fun i h0 hi => OUT_WRITE_data_below R h s hR _ _ _ i h0 hi (by omega)⟩
  · show s.mem.capacity + 1 ≤ (EnsureCapacity R s (wrap32 (s.pos + size))).cap
    rw [wrap32_of_range _ (by omega) (by omega)]
    omega
  · show s.mem.capacity + 1 ≤ (EnsureCapacity R s (wrap32 (s.pos + size))).mem.capacity
    rw [wrap32_of_range _ (by omega) (by omega)]
    omega

theorem GrownBeyond_CopyAndShift (hR : R.Conforms) (hs : Reachable R h s)
    (hC : s.mem.capacity + 1 ≤ INT32_MAX) (src : Int → Nat) (off len : Int)
    (hreq : s.pos + len = s.mem.capacity + 1) :
    GrownBeyond s (CopyAndShift R s src off len) := by
  obtain ⟨hpos, hcap0, hcap⟩ := hs.inv hR
  unfold INT32_MAX at hC
  have hge := EnsureCapacity_cap_ge R s (wrap32 (s.pos + len))
  have hle := EnsureCapacity_capacity R s hR (wrap32 (s.pos + len)) hcap
  rw [wrap32_of_range _ (by omega) (by omega)] at hge hle
  refine ⟨?_, ?_, fun i h0 hi => CopyAndShift_data_below R s hR _ _ _ i h0 hi (by omega)⟩
  · show s.mem.capacity + 1 ≤ (EnsureCapacity R s (wrap32 (s.pos + len))).cap
    rw [wrap32_of_range _ (by omega) (by omega)]
    omega
  · show s.mem.capacity + 1 ≤ (EnsureCapacity R s (wrap32 (s.pos + len))).mem.capacity
    rw [wrap32_of_range _ (by omega) (by omega)]
    omega

end c4

/-- C4 (as amended): for every stream whose region has a capacity `C < INT32_MAX` and whose
`Reallocate` meets its contract, every single write that requires `C + 1` bytes (an append
write of a scalar with `cursor + width = C + 1`, or a bulk copy ending at `C + 1`) leaves a
capacity of at least `C + 1`, and every byte at an offset below the old cursor holds the same
value as before the write. -/
theorem growth_correctness (R : Reallocator) (h : Endian) (s : InteropOutputStream)
    (hR : R.Conforms) (hs : Reachable R h s) (hC : s.mem.capacity + 1 ≤ INT32_MAX) :
    (s.pos + 1 = s.mem.capacity + 1 →
      (∀ v, GrownBeyond s (WriteInt8 R h s v)) ∧ (∀ b, GrownBeyond s (WriteBool R h s b))) ∧
    (s.pos + 2 = s.mem.capacity + 1 →
      (∀ v, GrownBeyond s (WriteInt16 R h s v)) ∧ (∀ v, GrownBeyond s (WriteUInt16 R h s v))) ∧
    (s.pos + 4 = s.mem.capacity + 1 →
      (∀ v, GrownBeyond s (WriteInt32 R h s v)) ∧ (∀ f, GrownBeyond s (WriteFloat R h s f))) ∧
    (s.pos + 8 = s.mem.capacity + 1 →
      (∀ v, GrownBeyond s (WriteInt64 R h s v)) ∧ (∀ d, GrownBeyond s (WriteDouble R h s d))) ∧
    (∀ src off len, s.pos + len = s.mem.capacity + 1 →
      GrownBeyond s (CopyAndShift R s src off len)) := by
  refine ⟨fun hq => ⟨fun v => ?_, fun b => ?_⟩, fun hq => ⟨fun v => ?_, fun v => ?_⟩,
    fun hq => ⟨fun v => ?_, fun f => ?_⟩, fun hq => ⟨fun v => ?_, fun d => ?_⟩,
    fun src off len hq => GrownBeyond_CopyAndShift R h s hR hs hC src off len hq⟩
  · exact GrownBeyond_OUT_WRITE R h s hR hs hC v 1 hq
  · exact GrownBeyond_OUT_WRITE R h s hR hs hC _ 1 hq
  · exact GrownBeyond_OUT_WRITE R h s hR hs hC v 2 hq
  · exact GrownBeyond_OUT_WRITE R h s hR hs hC v 2 hq
  · exact GrownBeyond_OUT_WRITE R h s hR hs hC v 4 hq
  · exact GrownBeyond_OUT_WRITE R h s hR hs hC _ 4 hq
  · exact GrownBeyond_OUT_WRITE R h s hR hs hC v 8 hq
  · exact GrownBeyond_OUT_WRITE R h s hR hs hC _ 8 hq

/-- Witness of `growth_correctness`: a region of 4 bytes that holds three written bytes, then an
`int16` write at cursor 3, which needs 5 bytes. -/
theorem growth_correctness_witness :
    exactReallocate.Conforms ∧
    Reachable exactReallocate Endian.little
      (run exactReallocate Endian.little (InteropOutputStream.new (zeroMemory 4))
        [Op.WriteInt8 1, Op.WriteInt16 515]) ∧
    (run exactReallocate Endian.little (InteropOutputStream.new (zeroMemory 4))
        [Op.WriteInt8 1, Op.WriteInt16 515]).mem.capacity + 1 ≤ INT32_MAX ∧
    (run exactReallocate Endian.little (InteropOutputStream.new (zeroMemory 4))
        [Op.WriteInt8 1, Op.WriteInt16 515]).pos + 2 =
      (run exactReallocate Endian.little (InteropOutputStream.new (zeroMemory 4))
        [Op.WriteInt8 1, Op.WriteInt16 515]).mem.capacity + 1 ∧
    GrownBeyond
      (run exactReallocate Endian.little (InteropOutputStream.new (zeroMemory 4))
        [Op.WriteInt8 1, Op.WriteInt16 515])
      (WriteInt16 exactReallocate Endian.little
        (run exactReallocate Endian.little (InteropOutputStream.new (zeroMemory 4))
          [Op.WriteInt8 1, Op.WriteInt16 515]) 1029) :=
  ⟨exactReallocate_conforms, ⟨zeroMemory 4, [Op.WriteInt8 1, Op.WriteInt16 515], by decide, rfl⟩,
    by decide, by decide,
    ((growth_correctness exactReallocate Endian.little _ exactReallocate_conforms
      ⟨zeroMemory 4, [Op.WriteInt8 1, Op.WriteInt16 515], by decide, rfl⟩
      (by decide)).2.1 (by decide)).1 1029⟩

/-- C4 as stated fails at the largest capacity: on a stream over a region of capacity
`C = INT32_MAX` with the cursor at `C`, `WriteInt8` requires `C + 1` bytes, the 32-bit sum
`pos + 1` wraps around, nothing is reallocated and the capacity stays `C`. -/
theorem growth_correctness_counterexample :
    Reachable exactReallocate Endian.little
      (run exactReallocate Endian.little (InteropOutputStream.new (zeroMemory 2147483647))
        [Op.Position 2147483647]) ∧
    (run exactReallocate Endian.little (InteropOutputStream.new (zeroMemory 2147483647))
        [Op.Position 2147483647]).pos + 1 =
      (run exactReallocate Endian.little (InteropOutputStream.new (zeroMemory 2147483647))
        [Op.Position 2147483647]).mem.capacity + 1 ∧
    (WriteInt8 exactReallocate Endian.little
      (run exactReallocate Endian.little (InteropOutputStream.new (zeroMemory 2147483647))
        [Op.Position 2147483647]) 7).cap = 2147483647 ∧
    ¬ GrownBeyond
      (run exactReallocate Endian.little (InteropOutputStream.new (zeroMemory 2147483647))
        [Op.Position 2147483647])
      (WriteInt8 exactReallocate Endian.little
        (run exactReallocate Endian.little (InteropOutputStream.new (zeroMemory 2147483647))
          [Op.Position 2147483647]) 7) := by
  refine ⟨⟨zeroMemory 2147483647, [Op.Position 2147483647], by decide, rfl⟩, by decide,
    by decide, fun hg => absurd hg.1 (by decide)⟩

/-! ## C5: what an append write of a scalar leaves behind -/

section c5

variable (R : Reallocator) (h : Endian) (s : InteropOutputStream)

/-- An append write leaves the object representation of the value at the old cursor. -/
theorem OUT_WRITE_bytes (val : Int) (size : Nat) (len : Int) (i : Nat) (hi : i < size) :
    (IGNITE_INTEROP_OUT_WRITE R h s val size len).mem.data (s.pos + i) =
      hostByte h size val i := by
  rw [OUT_WRITE_data, if_pos (by omega)]
  congr 1
  omega

theorem OUT_WRITE_pos (val : Int) (size : Nat) (len : Int) :
    (IGNITE_INTEROP_OUT_WRITE R h s val size len).pos = wrap32 (s.pos + len) := by
  simp only [IGNITE_INTEROP_OUT_WRITE, Shift_pos, store_pos, EnsureCapacity_pos]

end c5

section c6

variable (R : Reallocator) (h : Endian) (s : InteropOutputStream)

theorem hostByte_eq_leByte (w : Nat) (v : Int) (i : Nat) (hh : h = Endian.little ∨ w = 1)
    (hi : i < w) : hostByte h w v i = leByte v i := by
  rcases hh with hh | hh
  · rw [hh]
    rfl
  · cases h with
    | little => rfl
    | big =>
      show leByte v (w - 1 - i) = leByte v i
      congr 1
      omega

theorem PatchPost_store (reqCap o : Int) (size : Nat) (val : Int) :
    PatchPost h s (store (EnsureCapacity R s reqCap) h o size val) o size val := by
  refine ⟨by simp only [store_pos, EnsureCapacity_pos], fun i hi => ?_⟩
  rw [store_data, if_pos (by omega)]
  congr 1
  omega

theorem PatchPostLE_store (reqCap o : Int) (size : Nat) (val : Int)
    (hh : h = Endian.little ∨ size = 1) :
    PatchPostLE s (store (EnsureCapacity R s reqCap) h o size val) o size val := by
  obtain ⟨hp, hb⟩ := PatchPost_store R h s reqCap o size val
  exact ⟨hp, fun i hi => by rw [hb i hi, hostByte_eq_leByte h size val i hh hi]⟩

end c6

/-- C6 (as amended): for every stream state, offset `o` and value `v`, each of `WriteInt8(v, o)`,
`WriteInt16(o, v)`, `WriteInt32(o, v)`, `WriteInt64(o, v)` leaves the cursor equal to its value
before the call on every host, whether or not the call grows the region. Afterwards the bytes at
`o .. o + width - 1` are the little-endian encoding of `v`: for `WriteInt8` on every host, for
the wider patch writes on a little-endian host. In particular, after `Reserve(n)`, any further
operations and a patch write, the cursor is where those operations left it. -/
theorem patch_write_keeps_cursor (R : Reallocator) (h : Endian) (s : InteropOutputStream)
    (o v : Int) :
    ((WriteInt8At R h s v o).pos = s.pos ∧ (WriteInt16At R h s o v).pos = s.pos ∧
      (WriteInt32At R h s o v).pos = s.pos ∧ (WriteInt64At R h s o v).pos = s.pos) ∧
    PatchPostLE s (WriteInt8At R h s v o) o 1 v ∧
    (h = Endian.little →
      PatchPostLE s (WriteInt16At R h s o v) o 2 v ∧
      PatchPostLE s (WriteInt32At R h s o v) o 4 v ∧
      PatchPostLE s (WriteInt64At R h s o v) o 8 v) ∧
    (∀ (n : Int) (ops : List Op),
      (WriteInt8At R h (run R h (Reserve R s n).2 ops) v o).pos =
        (run R h (Reserve R s n).2 ops).pos ∧
      (WriteInt16At R h (run R h (Reserve R s n).2 ops) o v).pos =
        (run R h (Reserve R s n).2 ops).pos ∧
      (WriteInt32At R h (run R h (Reserve R s n).2 ops) o v).pos =
        (run R h (Reserve R s n).2 ops).pos ∧
      (WriteInt64At R h (run R h (Reserve R s n).2 ops) o v).pos =
        (run R h (Reserve R s n).2 ops).pos) :=
  ⟨⟨(PatchPost_store R h s _ o 1 v).1, (PatchPost_store R h s _ o 2 v).1,
      (PatchPost_store R h s _ o 4 v).1, (PatchPost_store R h s _ o 8 v).1⟩,
    PatchPostLE_store R h s _ o 1 v (Or.inr rfl),
    fun hle => ⟨PatchPostLE_store R h s _ o 2 v (Or.inl hle),
      PatchPostLE_store R h s _ o 4 v (Or.inl hle), PatchPostLE_store R h s _ o 8 v (Or.inl hle)⟩,
    fun n ops =>
      ⟨(PatchPost_store R h (run R h (Reserve R s n).2 ops) _ o 1 v).1,
        (PatchPost_store R h (run R h (Reserve R s n).2 ops) _ o 2 v).1,
        (PatchPost_store R h (run R h (Reserve R s n).2 ops) _ o 4 v).1,
        (PatchPost_store R h (run R h (Reserve R s n).2 ops) _ o 8 v).1⟩⟩

/-- Witness of `patch_write_keeps_cursor`: on a little-endian host, `Reserve(4)` on a fresh
stream, then the patch writes of `-2` at offset 0. -/
theorem patch_write_keeps_cursor_witness :
    Endian.little = Endian.little ∧
    PatchPostLE (Reserve exactReallocate (InteropOutputStream.new (zeroMemory 0)) 4).2
      (WriteInt16At exactReallocate Endian.little
        (Reserve exactReallocate (InteropOutputStream.new (zeroMemory 0)) 4).2 0 (-2)) 0 2 (-2) ∧
    PatchPostLE (Reserve exactReallocate (InteropOutputStream.new (zeroMemory 0)) 4).2
      (WriteInt32At exactReallocate Endian.little
        (Reserve exactReallocate (InteropOutputStream.new (zeroMemory 0)) 4).2 0 (-2)) 0 4 (-2) ∧
    PatchPostLE (Reserve exactReallocate (InteropOutputStream.new (zeroMemory 0)) 4).2
      (WriteInt64At exactReallocate Endian.little
        (Reserve exactReallocate (InteropOutputStream.new (zeroMemory 0)) 4).2 0 (-2)) 0 8 (-2) :=
  ⟨rfl, (patch_write_keeps_cursor exactReallocate Endian.little
    (Reserve exactReallocate (InteropOutputStream.new (zeroMemory 0)) 4).2 0 (-2)).2.2.1 rfl⟩

/-- C6 as stated fails on a big-endian host: after `Reserve(4)` on a fresh stream,
`WriteInt32(0, 1)` leaves the cursor at 4 and the bytes `0, 0, 0, 1` at the offsets `0 .. 3`,
while the little-endian encoding of 1 is `1, 0, 0, 0`; read as a little-endian signed integer
the four bytes are 16777216. -/
theorem patch_write_keeps_cursor_counterexample :
    (WriteInt32At exactReallocate Endian.big
        (Reserve exactReallocate (InteropOutputStream.new (zeroMemory 0)) 4).2 0 1).pos = 4 ∧
    (List.range 4).map (fun (i : Nat) =>
      (WriteInt32At exactReallocate Endian.big
        (Reserve exactReallocate (InteropOutputStream.new (zeroMemory 0)) 4).2 0 1).mem.data
          (0 + (i : Int))) = [0, 0, 0, 1] ∧
    (List.range 4).map (fun (i : Nat) => leByte 1 i) = [1, 0, 0, 0] ∧
    readSignedLE
      (WriteInt32At exactReallocate Endian.big
        (Reserve exactReallocate (InteropOutputStream.new (zeroMemory 0)) 4).2 0 1).mem.data
      0 4 = 16777216 ∧
    ¬ PatchPostLE (Reserve exactReallocate (InteropOutputStream.new (zeroMemory 0)) 4).2
      (WriteInt32At exactReallocate Endian.big
        (Reserve exactReallocate (InteropOutputStream.new (zeroMemory 0)) 4).2 0 1) 0 4 1 := by
  refine ⟨by decide, by decide, by decide, by decide, fun hp => ?_⟩
  exact absurd (hp.2 0 (by decide)) (by decide)

/-! ## C7 and C8: round trip of scalars, floats through the integer path -/

section bytes

theorem emod_mul_split (v a b : Int) (ha : 0 < a) (hb : 0 < b) :
    v % (a * b) = v % a + a * (v / a % b) := by
  have hab : 0 < a * b := Int.mul_pos ha hb
  have h1 := Int.emod_add_ediv v a
  have h2 := Int.emod_add_ediv (v / a) b
  have r0 := Int.emod_nonneg v (ne_of_gt ha)
  have r1 := Int.emod_lt_of_pos v ha
  have q0 := Int.emod_nonneg (v / a) (ne_of_gt hb)
  have q1 := Int.emod_lt_of_pos (v / a) hb
  have key : v / (a * b) = v / a / b ∧ v % (a * b) = v % a + a * (v / a % b) := by
    refine (Int.ediv_emod_unique hab).2 ⟨?_, ?_, ?_⟩
    · calc v % a + a * (v / a % b) + a * b * (v / a / b)
          = v % a + a * (v / a % b + b * (v / a / b)) := by ring
        _ = v := by rw [h2, h1]
    · have := Int.mul_nonneg (le_of_lt ha) q0
      omega
    · have : a * (v / a % b) ≤ a * (b - 1) :=
        Int.mul_le_mul_of_nonneg_left (by omega) (le_of_lt ha)
      have e : a * (b - 1) = a * b - a := by ring
      omega
  exact key.2

/-- The bytes of a value, put together again, give the value modulo `256 ^ w`. -/
theorem loadLE_leByte (v : Int) (w : Nat) :
    (loadLE w (fun i => leByte v i) : Int) = v % 256 ^ w := by
  induction w with
  | zero => simp [loadLE]
  | succ w ih =>
    have hp : (0 : Int) < 256 ^ w := by positivity
    have hb : ((leByte v w : Nat) : Int) = v / 256 ^ w % 256 := by
      unfold leByte
      exact Int.toNat_of_nonneg (Int.emod_nonneg _ (by decide))
    rw [loadLE, Nat.cast_add, Nat.cast_mul, ih, hb, pow_succ,
      emod_mul_split v _ 256 hp (by decide)]
    push_cast
    ring

theorem loadLE_congr (w : Nat) (b c : Nat → Nat) (hbc : ∀ i, i < w → b i = c i) :
    loadLE w b = loadLE w c := by
  induction w with
  | zero => rfl
  | succ w ih => rw [loadLE, loadLE, ih (fun i hi => hbc i (by omega)), hbc w (by omega)]

/-- Loading, in the byte order of the host, what was stored in the byte order of the host gives
the value modulo `256 ^ w`, whatever the byte order is. -/
theorem hostLoad_hostByte (h : Endian) (w : Nat) (v : Int) :
    (hostLoad h w (fun k => hostByte h w v k) : Int) = v % 256 ^ w := by
  cases h with
  | little => exact loadLE_leByte v w
  | big =>
    have hc : loadLE w (fun i => hostByte Endian.big w v (w - 1 - i)) =
        loadLE w (fun i => leByte v i) := by
      apply loadLE_congr
      intro i hi
      show leByte v (w - 1 - (w - 1 - i)) = leByte v i
      congr 1
      omega
    show ((loadLE w (fun i => hostByte Endian.big w v (w - 1 - i)) : Nat) : Int) = v % 256 ^ w
    rw [hc]
    exact loadLE_leByte v w

theorem BinaryFloatInt32_i_setF (h : Endian) (f : Nat) :
    (BinaryFloatInt32.setF h f).i h = bits32 f := by
  have key := hostLoad_hostByte h 4 (f : Int)
  norm_num at key
  have hn : hostLoad h 4 (fun k => hostByte h 4 (f : Int) k) = f % 4294967296 := by omega
  unfold BinaryFloatInt32.i BinaryFloatInt32.setF bits32
  rw [hn]

theorem BinaryDoubleInt64_i_setD (h : Endian) (d : Nat) :
    (BinaryDoubleInt64.setD h d).i h = bits64 d := by
  have key := hostLoad_hostByte h 8 (d : Int)
  norm_num at key
  have hn : hostLoad h 8 (fun k => hostByte h 8 (d : Int) k) = d % 18446744073709551616 := by
    omega
  unfold BinaryDoubleInt64.i BinaryDoubleInt64.setD bits64
  rw [hn]

end bytes

theorem WriteFloat_eq_WriteInt (R : Reallocator) (h : Endian) (s : InteropOutputStream)
    (x : Nat) :
    WriteFloat R h s x = WriteInt32 R h s (bits32 x) ∧
    WriteDouble R h s x = WriteInt64 R h s (bits64 x) := by
  constructor
  · show WriteInt32 R h s ((BinaryFloatInt32.setF h x).i h) = _
    rw [BinaryFloatInt32_i_setF]
  · show WriteInt64 R h s ((BinaryDoubleInt64.setD h x).i h) = _
    rw [BinaryDoubleInt64_i_setD]

/-- C8: floats and doubles go through the integer path. On every host, `WriteFloat(f)` gives
exactly the stream state of `WriteInt32(bits32 f)` and `WriteDouble(d)` exactly the one of
`WriteInt64(bits64 d)`, where `bits32` / `bits64` is the IEEE-754 bit pattern reinterpreted as a
signed integer of the same width. -/
theorem float_through_integer_path (R : Reallocator) (h : Endian) (s : InteropOutputStream)
    (f d : Nat) :
    WriteFloat R h s f = WriteInt32 R h s (bits32 f) ∧
    WriteDouble R h s d = WriteInt64 R h s (bits64 d) := by
  constructor
  · show WriteInt32 R h s ((BinaryFloatInt32.setF h f).i h) = _
    rw [BinaryFloatInt32_i_setF]
  · show WriteInt64 R h s ((BinaryDoubleInt64.setD h d).i h) = _
    rw [BinaryDoubleInt64_i_setD]

section c7

variable (R : Reallocator) (h : Endian) (s : InteropOutputStream)

/-- Reading back, least significant byte first, what an append write has left at the old cursor
(on a little-endian host, or for a single byte) gives the value modulo `256 ^ size`. -/
theorem readUnsignedLE_OUT_WRITE (val : Int) (size : Nat) (len : Int)
    (hh : h = Endian.little ∨ size = 1) :
    (readUnsignedLE (IGNITE_INTEROP_OUT_WRITE R h s val size len).mem.data s.pos size : Int) =
      val % 256 ^ size := by
  unfold readUnsignedLE
  rw [loadLE_congr size _ (fun i => leByte val i) (fun i hi => by
    rw [OUT_WRITE_bytes R h s val size len i hi, hostByte_eq_leByte h size val i hh hi])]
  exact loadLE_leByte val size

end c7

/-- C7 (as amended): round trip of every fixed-width scalar. For `int8` and `bool` on every
host, and for `int16`, `uint16`, `int32`, `int64` and every 32-bit / 64-bit float bit pattern on
a little-endian host: writing the value at cursor `p` and reading `width` bytes at offset `p`
as a little-endian integer of the same width and signedness gives the value back; for `bool`,
reading the byte as `byte != 0` gives the written `bool` back. -/
theorem scalar_round_trip (R : Reallocator) (s : InteropOutputStream) :
    (∀ (h : Endian) (v : Int), -128 ≤ v → v ≤ 127 →
      readSignedLE (WriteInt8 R h s v).mem.data s.pos 1 = v) ∧
    (∀ (h : Endian) (b : Bool), readBool (WriteBool R h s b).mem.data s.pos = b) ∧
    (∀ v : Int, -32768 ≤ v → v ≤ 32767 →
      readSignedLE (WriteInt16 R Endian.little s v).mem.data s.pos 2 = v) ∧
    (∀ v : Int, 0 ≤ v → v ≤ 65535 →
      (readUnsignedLE (WriteUInt16 R Endian.little s v).mem.data s.pos 2 : Int) = v) ∧
    (∀ v : Int, -2147483648 ≤ v → v ≤ 2147483647 →
      readSignedLE (WriteInt32 R Endian.little s v).mem.data s.pos 4 = v) ∧
    (∀ v : Int, -9223372036854775808 ≤ v → v ≤ 9223372036854775807 →
      readSignedLE (WriteInt64 R Endian.little s v).mem.data s.pos 8 = v) ∧
    (∀ f : Nat, f < 4294967296 →
      readUnsignedLE (WriteFloat R Endian.little s f).mem.data s.pos 4 = f) ∧
    (∀ d : Nat, d < 18446744073709551616 →
      readUnsignedLE (WriteDouble R Endian.little s d).mem.data s.pos 8 = d) := by
  refine ⟨fun h v h0 h1 => ?_, fun h b => ?_, fun v h0 h1 => ?_, fun v h0 h1 => ?_,
    fun v h0 h1 => ?_, fun v h0 h1 => ?_, fun f hf => ?_, fun d hd => ?_⟩
  · have key := readUnsignedLE_OUT_WRITE R h s v 1 1 (Or.inr rfl)
    unfold readSignedLE asSigned WriteInt8
    norm_num at key ⊢
    split <;> omega
  · have key := readUnsignedLE_OUT_WRITE R h s (if b then 1 else 0) 1 1 (Or.inr rfl)
    have hd : (WriteBool R h s b).mem.data s.pos =
        readUnsignedLE (IGNITE_INTEROP_OUT_WRITE R h s (if b then 1 else 0) 1 1).mem.data
          s.pos 1 := by
      simp [readUnsignedLE, loadLE, WriteBool, WriteInt8]
    unfold readBool
    rw [hd]
    cases b <;> norm_num at key <;> simp [key]
  · have key := readUnsignedLE_OUT_WRITE R Endian.little s v 2 2 (Or.inl rfl)
    unfold readSignedLE asSigned WriteInt16
    norm_num at key ⊢
    split <;> omega
  · have key := readUnsignedLE_OUT_WRITE R Endian.little s v 2 2 (Or.inl rfl)
    unfold WriteUInt16
    norm_num at key ⊢
    omega
  · have key := readUnsignedLE_OUT_WRITE R Endian.little s v 4 4 (Or.inl rfl)
    unfold readSignedLE asSigned WriteInt32
    norm_num at key ⊢
    split <;> omega
  · have key := readUnsignedLE_OUT_WRITE R Endian.little s v 8 8 (Or.inl rfl)
    unfold readSignedLE asSigned WriteInt64
    norm_num at key ⊢
    split <;> omega
  · have key := readUnsignedLE_OUT_WRITE R Endian.little s (bits32 f) 4 4 (Or.inl rfl)
    rw [(WriteFloat_eq_WriteInt R Endian.little s f).1]
    unfold WriteInt32
    have hb : bits32 f % 4294967296 = (f : Int) := by
      unfold bits32 asSigned
      norm_num
      split <;> omega
    norm_num at key
    omega
  · have key := readUnsignedLE_OUT_WRITE R Endian.little s (bits64 d) 8 8 (Or.inl rfl)
    rw [(WriteFloat_eq_WriteInt R Endian.little s d).2]
    unfold WriteInt64
    have hb : bits64 d % 18446744073709551616 = (d : Int) := by
      unfold bits64 asSigned
      norm_num
      split <;> omega
    norm_num at key
    omega

/-- Witness of `scalar_round_trip`: the `int32` value `-2` written on a fresh stream. -/
theorem scalar_round_trip_witness :
    (-2147483648 : Int) ≤ -2 ∧ (-2 : Int) ≤ 2147483647 ∧
    readSignedLE
      (WriteInt32 exactReallocate Endian.little (InteropOutputStream.new (zeroMemory 0))
        (-2)).mem.data (InteropOutputStream.new (zeroMemory 0)).pos 4 = -2 :=
  ⟨by decide, by decide,
    (scalar_round_trip exactReallocate (InteropOutputStream.new (zeroMemory 0))).2.2.2.2.1 (-2)
      (by decide) (by decide)⟩

/-- C7 as stated fails on a big-endian host: `WriteInt16(1)` at cursor 0 leaves the bytes
`0, 1`, and reading two bytes at offset 0 as a little-endian signed integer gives 256. -/
theorem scalar_round_trip_counterexample :
    readSignedLE
      (WriteInt16 exactReallocate Endian.big (InteropOutputStream.new (zeroMemory 0))
        1).mem.data (InteropOutputStream.new (zeroMemory 0)).pos 2 = 256 ∧
    ¬ (readSignedLE
      (WriteInt16 exactReallocate Endian.big (InteropOutputStream.new (zeroMemory 0))
        1).mem.data (InteropOutputStream.new (zeroMemory 0)).pos 2 = 1) := by
  constructor <;> decide

/-! ## C9: `Reserve` -/

/-- C9: for every stream with cursor `p` and every `n` (in particular every `n >= 0`) such that
`p + n` does not overflow, `Reserve(n)` returns `p`, leaves the cursor at `p + n`, leaves the
capacity (the cached one and the one of the region) at least `p + n`, and changes no byte at an
offset below `p`. -/
theorem Reserve_spec (R : Reallocator) (h : Endian) (s : InteropOutputStream) (n : Int)
    (hR : R.Conforms) (hs : Reachable R h s)
    (hmin : INT32_MIN ≤ s.pos + n) (hmax : s.pos + n ≤ INT32_MAX) :
    (Reserve R s n).1 = s.pos ∧
    (Reserve R s n).2.pos = s.pos + n ∧
    s.pos + n ≤ (Reserve R s n).2.cap ∧
    s.pos + n ≤ (Reserve R s n).2.mem.capacity ∧
    ∀ i : Int, 0 ≤ i → i < s.pos → (Reserve R s n).2.mem.data i = s.mem.data i := by
  obtain ⟨hpos, hcap0, hcap⟩ := hs.inv hR
  have hw : wrap32 (s.pos + n) = s.pos + n := wrap32_of_range _ hmin hmax
  have hge := EnsureCapacity_cap_ge R s (wrap32 (s.pos + n))
  have hle := EnsureCapacity_capacity R s hR (wrap32 (s.pos + n)) hcap
  rw [hw] at hge hle
  refine ⟨?_, ?_, ?_, ?_, fun i h0 hi => ?_⟩
  · simp only [Reserve, EnsureCapacity_pos]
  · simp only [Reserve, Shift_pos, EnsureCapacity_pos, hw]
  · simp only [Reserve, Shift_cap, hw]
    exact hge
  · simp only [Reserve, Shift_mem, hw]
    omega
  · simp only [Reserve, Shift_mem]
    exact EnsureCapacity_data R s hR _ i h0 (by omega)

/-- Witness of `Reserve_spec`: four bytes reserved after one written byte on a region of two
bytes. -/
theorem Reserve_spec_witness :
    exactReallocate.Conforms ∧
    Reachable exactReallocate Endian.little
      (run exactReallocate Endian.little (InteropOutputStream.new (zeroMemory 2))
        [Op.WriteInt8 9]) ∧
    (Reserve exactReallocate
      (run exactReallocate Endian.little (InteropOutputStream.new (zeroMemory 2))
        [Op.WriteInt8 9]) 4).1 =
      (run exactReallocate Endian.little (InteropOutputStream.new (zeroMemory 2))
        [Op.WriteInt8 9]).pos :=
  ⟨exactReallocate_conforms, ⟨zeroMemory 2, [Op.WriteInt8 9], by decide, rfl⟩,
    (Reserve_spec exactReallocate Endian.little _ 4 exactReallocate_conforms
      ⟨zeroMemory 2, [Op.WriteInt8 9], by decide, rfl⟩ (by decide) (by decide)).1⟩

/-! ## C10: the bulk copy -/

/-- C10 (as amended): for every source buffer `src`, offset `off` and length `len >= 0`,
`CopyAndShift(src, off, len)` (and `WriteInt8Array(val, len)`, which is the same call with
`off = 0`) on a stream with cursor `p` (an `int32_t`) such that `p + len <= INT32_MAX` first
ensures the capacity `p + len`, then makes byte `p + i` equal to `src[off + i]` for every
`0 <= i < len`, then leaves the cursor at `p + len`; the bytes below `p` are unchanged. -/
theorem CopyAndShift_spec (R : Reallocator) (h : Endian) (s : InteropOutputStream)
    (src : Int → Nat) (off len : Int) (hR : R.Conforms) (hs : Reachable R h s) (hlen : 0 ≤ len)
    (hmin : INT32_MIN ≤ s.pos) (hmax : s.pos + len ≤ INT32_MAX) :
    CopyPost R s (CopyAndShift R s src off len) src off len ∧
    WriteInt8Array R s src len = CopyAndShift R s src 0 len := by
  obtain ⟨hpos, hcap0, hcap⟩ := hs.inv hR
  unfold INT32_MIN at hmin
  unfold INT32_MAX at hmax
  have hw : wrap32 (s.pos + len) = s.pos + len := wrap32_of_range _ (by omega) hmax
  have hsz : (toSizeT len : Int) = len :=
    toSizeT_of_nonneg len hlen (by omega)
  have hszn : toSizeT len = len.toNat := by omega
  refine ⟨⟨?_, ?_, fun i h0 hi => ?_, ?_, fun i h0 hi => ?_⟩, rfl⟩
  · have hge := EnsureCapacity_cap_ge R s (wrap32 (s.pos + len))
    rw [hw] at hge
    simp only [CopyAndShift, Shift_cap, memcpy_cap, hw]
    exact hge
  · simp only [CopyAndShift, newEvents, Shift, memcpy, hw, EnsureCapacity_pos, hszn]
    rw [EnsureCapacity_trace, List.append_assoc, List.drop_left, List.drop_left]
  · rw [CopyAndShift_data, if_pos (by omega)]
    congr 1
    omega
  · simp only [CopyAndShift, Shift_pos, memcpy_pos, EnsureCapacity_pos, hw]
  · exact CopyAndShift_data_below R s hR src off len i h0 hi (by omega)

/-- Witness of `CopyAndShift_spec`: three bytes copied to a fresh stream over an empty region. -/
theorem CopyAndShift_spec_witness :
    exactReallocate.Conforms ∧
    Reachable exactReallocate Endian.little (InteropOutputStream.new (zeroMemory 0)) ∧
    CopyPost exactReallocate (InteropOutputStream.new (zeroMemory 0))
      (CopyAndShift exactReallocate (InteropOutputStream.new (zeroMemory 0))
        (fun j => (j + 10).toNat) 1 3) (fun j => (j + 10).toNat) 1 3 :=
  ⟨exactReallocate_conforms, ⟨zeroMemory 0, [], by decide, rfl⟩,
    (CopyAndShift_spec exactReallocate Endian.little (InteropOutputStream.new (zeroMemory 0))
      (fun j => (j + 10).toNat) 1 3 exactReallocate_conforms
      ⟨zeroMemory 0, [], by decide, rfl⟩ (by decide) (by decide) (by decide)).1⟩

/-- C10 as stated fails when `p + len` overflows: on a stream whose cursor is `INT32_MAX`,
`CopyAndShift(src, 0, 1)` leaves the cursor at `INT32_MIN` instead of `p + 1`, and the capacity
stays below `p + 1`. -/
theorem CopyAndShift_spec_counterexample :
    (run exactReallocate Endian.little (InteropOutputStream.new (zeroMemory 0))
      [Op.Position 2147483647]).pos = 2147483647 ∧
    (CopyAndShift exactReallocate
      (run exactReallocate Endian.little (InteropOutputStream.new (zeroMemory 0))
        [Op.Position 2147483647]) (fun _ => 5) 0 1).pos = -2147483648 ∧
    (CopyAndShift exactReallocate
      (run exactReallocate Endian.little (InteropOutputStream.new (zeroMemory 0))
        [Op.Position 2147483647]) (fun _ => 5) 0 1).cap = 2147483647 ∧
    ¬ CopyPost exactReallocate
      (run exactReallocate Endian.little (InteropOutputStream.new (zeroMemory 0))
        [Op.Position 2147483647])
      (CopyAndShift exactReallocate
        (run exactReallocate Endian.little (InteropOutputStream.new (zeroMemory 0))
          [Op.Position 2147483647]) (fun _ => 5) 0 1) (fun _ => 5) 0 1 := by
  refine ⟨by decide, by decide, by decide, fun hp => absurd hp.1 (by decide)⟩

/-! ## Loops and whole-operation induction -/

section loops

variable (R : Reallocator) (h : Endian) (s : InteropOutputStream)

/-- A property kept by `EnsureCapacity`, by every change of the bytes and of the trace, and by
every change of the cursor is kept by every operation; `Synchronize` is asked for separately. -/
theorem apply_induction (P : InteropOutputStream → Prop)
    (hE : ∀ t r, P t → P (EnsureCapacity R t r))
    (hD : ∀ (t : InteropOutputStream) (d : Int → Nat) (tr : List MemEvent),
      P t → P { t with mem := { t.mem with data := d }, trace := tr })
    (hP : ∀ (t : InteropOutputStream) (p : Int), P t → P { t with pos := p })
    (op : Op) (hSy : P s → P (Synchronize s)) (hs : P s) : P (op.apply R h s) := by
  have hW : ∀ t val size len, P t → P (IGNITE_INTEROP_OUT_WRITE R h t val size len) :=
    fun t val size len ht => hP _ _ (hD _ _ _ (hE t _ ht))
  have hC : ∀ t src off len, P t → P (CopyAndShift R t src off len) :=
    fun t src off len ht => hP _ _ (hD _ _ _ (hE t _ ht))
  have hA : ∀ t r off size val, P t → P (store (EnsureCapacity R t r) h off size val) :=
    fun t r off size val ht => hD _ _ _ (hE t r ht)
  cases op with
  | WriteInt8 val => exact hW s _ _ _ hs
  | WriteInt8At val pos => exact hA s _ _ _ _ hs
  | WriteInt8Array val len => exact hC s _ _ _ hs
  | WriteBool val => exact hW s _ _ _ hs
  | WriteBoolArray val len =>
    exact forLoop_induction s P _ (fun t _ ht => hW t _ _ _ ht) len hs
  | WriteInt16 val => exact hW s _ _ _ hs
  | WriteInt16At pos val => exact hA s _ _ _ _ hs
  | WriteInt16Array val len => exact hC s _ _ _ hs
  | WriteUInt16 val => exact hW s _ _ _ hs
  | WriteUInt16Array val len => exact hC s _ _ _ hs
  | WriteInt32 val => exact hW s _ _ _ hs
  | WriteInt32At pos val => exact hA s _ _ _ _ hs
  | WriteInt32Array val len => exact hC s _ _ _ hs
  | WriteInt64 val => exact hW s _ _ _ hs
  | WriteInt64At pos val => exact hA s _ _ _ _ hs
  | WriteInt64Array val len => exact hC s _ _ _ hs
  | WriteFloat val => exact hW s _ _ _ hs
  | WriteFloatArray val len =>
    exact forLoop_induction s P _ (fun t _ ht => hW t _ _ _ ht) len hs
  | WriteDouble val => exact hW s _ _ _ hs
  | WriteDoubleArray val len =>
    exact forLoop_induction s P _ (fun t _ ht => hW t _ _ _ ht) len hs
  | Position val => exact hP _ _ (hE s _ hs)
  | Reserve num => exact hP _ _ (hE s _ hs)
  | Synchronize => exact hSy hs

/-- The loop of the model, as a fold over the indices `0, ..., len - 1`. -/
theorem forLoop_eq_foldl (len : Int) (body : InteropOutputStream → Int → InteropOutputStream) :
    forLoop len body s =
      (List.range len.toNat).foldl (fun acc (i : Nat) => body acc (i : Int)) s := by
  unfold forLoop
  generalize List.range len.toNat = l
  induction l generalizing s with
  | nil => rfl
  | cons a l ih => exact ih (body s a)

/-- The loop over an array is the sequence of the calls on its elements. -/
theorem forLoop_eq_run (len : Int) (mk : Int → Op) :
    forLoop len (fun t i => (mk i).apply R h t) s = run R h s (elementOps len mk) := by
  rw [forLoop_eq_foldl]
  unfold run elementOps
  rw [List.foldl_map]

theorem forLoop_of_nonpos (len : Int) (hlen : len ≤ 0)
    (body : InteropOutputStream → Int → InteropOutputStream) : forLoop len body s = s := by
  rw [forLoop_eq_foldl]
  have h0 : len.toNat = 0 := by omega
  rw [h0]
  rfl

/-- One more turn of the loop is one more call of the body. -/
theorem forLoop_succ (k : Nat) (body : InteropOutputStream → Int → InteropOutputStream) :
    forLoop ((k : Int) + 1) body s = body (forLoop (k : Int) body s) (k : Int) := by
  rw [forLoop_eq_foldl, forLoop_eq_foldl]
  have h1 : ((k : Int) + 1).toNat = k + 1 := by omega
  have h2 : (k : Int).toNat = k := by omega
  rw [h1, h2, List.range_succ, List.foldl_append]
  rfl

theorem wrap32_wrap32_add (a b : Int) : wrap32 (wrap32 a + b) = wrap32 (a + b) := by
  unfold wrap32
  omega

/-- The cursor after a loop whose body moves the cursor by `w`, in 32-bit arithmetic. -/
theorem forLoop_pos (w : Int) (body : InteropOutputStream → Int → InteropOutputStream)
    (hbody : ∀ t i, (body t i).pos = wrap32 (t.pos + w)) (len : Int)
    (hmin : INT32_MIN ≤ s.pos) (hmax : s.pos ≤ INT32_MAX) :
    (forLoop len body s).pos = wrap32 (s.pos + w * (len.toNat : Int)) := by
  rw [forLoop_eq_foldl]
  generalize len.toNat = n
  induction n with
  | zero =>
    unfold INT32_MIN at hmin
    unfold INT32_MAX at hmax
    simp only [List.range_zero, List.foldl_nil, Nat.cast_zero, mul_zero, add_zero]
    exact (wrap32_of_range _ hmin hmax).symm
  | succ n ih =>
    rw [List.range_succ, List.foldl_append]
    simp only [List.foldl_cons, List.foldl_nil]
    rw [hbody, ih, wrap32_wrap32_add]
    congr 1
    push_cast
    ring

end loops

/-! ## C11: the element-wise array writers -/

section c11

variable (R : Reallocator) (h : Endian) (s : InteropOutputStream)

theorem forLoop_OUT_WRITE_pos (size : Nat) (val : Int → Int) (len : Int)
    (hmin : INT32_MIN ≤ s.pos) (h0 : 0 ≤ len) (hmax : s.pos + size * len ≤ INT32_MAX) :
    (forLoop len (fun t i => IGNITE_INTEROP_OUT_WRITE R h t (val i) size size) s).pos =
      s.pos + size * len := by
  have hp : s.pos ≤ INT32_MAX := by
    have : (0 : Int) ≤ size * len := Int.mul_nonneg (Int.ofNat_nonneg _) h0
    omega
  rw [forLoop_pos s (size : Int) _ (fun t i => OUT_WRITE_pos R h t _ _ _) len hmin hp]
  have hl : ((len.toNat : Nat) : Int) = len := Int.toNat_of_nonneg h0
  rw [hl]
  unfold INT32_MIN at hmin
  unfold INT32_MAX at hmax
  have : (0 : Int) ≤ size * len := Int.mul_nonneg (Int.ofNat_nonneg _) h0
  exact wrap32_of_range _ (by omega) hmax

end c11

/-- C11 (as amended): for every array `val` and length `len`, `WriteBoolArray(val, len)`,
`WriteFloatArray(val, len)` and `WriteDoubleArray(val, len)` give exactly the stream state
obtained by calling `WriteBool` / `WriteFloat` / `WriteDouble` on `val[0], ..., val[len-1]` in
index order; for `len <= 0` the stream is unchanged; and for `len >= 0` on a stream whose cursor
`p` (an `int32_t`) satisfies `p + len <= INT32_MAX`, `p + 4*len <= INT32_MAX`,
`p + 8*len <= INT32_MAX` respectively, the cursor advances by `len`, `4*len`, `8*len`. -/
theorem array_writers_elementwise (R : Reallocator) (h : Endian) (s : InteropOutputStream)
    (len : Int) :
    (∀ val : Int → Bool, WriteBoolArray R h s val len =
      run R h s (elementOps len (fun i => Op.WriteBool (val i)))) ∧
    (∀ val : Int → Nat, WriteFloatArray R h s val len =
      run R h s (elementOps len (fun i => Op.WriteFloat (val i)))) ∧
    (∀ val : Int → Nat, WriteDoubleArray R h s val len =
      run R h s (elementOps len (fun i => Op.WriteDouble (val i)))) ∧
    (len ≤ 0 → (∀ val, WriteBoolArray R h s val len = s) ∧
      (∀ val, WriteFloatArray R h s val len = s) ∧ (∀ val, WriteDoubleArray R h s val len = s)) ∧
    (INT32_MIN ≤ s.pos → 0 ≤ len → s.pos + len ≤ INT32_MAX →
      ∀ val, (WriteBoolArray R h s val len).pos = s.pos + len) ∧
    (INT32_MIN ≤ s.pos → 0 ≤ len → s.pos + 4 * len ≤ INT32_MAX →
      ∀ val, (WriteFloatArray R h s val len).pos = s.pos + 4 * len) ∧
    (INT32_MIN ≤ s.pos → 0 ≤ len → s.pos + 8 * len ≤ INT32_MAX →
      ∀ val, (WriteDoubleArray R h s val len).pos = s.pos + 8 * len) := by
  refine ⟨fun val => forLoop_eq_run R h s len (fun i => Op.WriteBool (val i)),
    fun val => forLoop_eq_run R h s len (fun i => Op.WriteFloat (val i)),
    fun val => forLoop_eq_run R h s len (fun i => Op.WriteDouble (val i)),
    fun hl => ⟨fun val => forLoop_of_nonpos s len hl _, fun val => forLoop_of_nonpos s len hl _,
      fun val => forLoop_of_nonpos s len hl _⟩,
    fun hmin h0 hmax val => ?_, fun hmin h0 hmax val => ?_, fun hmin h0 hmax val => ?_⟩
  · have key := forLoop_OUT_WRITE_pos R h s 1 (fun i => if val i then 1 else 0) len hmin h0
      (by simpa using hmax)
    simpa using key
  · have key := forLoop_OUT_WRITE_pos R h s 4
      (fun i => (BinaryFloatInt32.setF h (val i)).i h) len hmin h0 (by simpa using hmax)
    simpa using key
  · have key := forLoop_OUT_WRITE_pos R h s 8
      (fun i => (BinaryDoubleInt64.setD h (val i)).i h) len hmin h0 (by simpa using hmax)
    simpa using key

/-- Witness of `array_writers_elementwise`: three floats written on a fresh stream. -/
theorem array_writers_elementwise_witness :
    INT32_MIN ≤ (InteropOutputStream.new (zeroMemory 0)).pos ∧ (0 : Int) ≤ 3 ∧
    (InteropOutputStream.new (zeroMemory 0)).pos + 4 * 3 ≤ INT32_MAX ∧
    (WriteFloatArray exactReallocate Endian.little (InteropOutputStream.new (zeroMemory 0))
      (fun i => (i + 1).toNat) 3).pos = (InteropOutputStream.new (zeroMemory 0)).pos + 4 * 3 :=
  ⟨by decide, by decide, by decide,
    (array_writers_elementwise exactReallocate Endian.little
      (InteropOutputStream.new (zeroMemory 0)) 3).2.2.2.2.2.1 (by decide) (by decide) (by decide)
      (fun i => (i + 1).toNat)⟩

/-- C11 as stated fails when the cursor overflows: on a stream whose cursor is `INT32_MAX`,
`WriteBoolArray(val, 1)` leaves the cursor at `INT32_MIN`, so it has not advanced by `len`. -/
theorem array_writers_elementwise_counterexample :
    (run exactReallocate Endian.little (InteropOutputStream.new (zeroMemory 0))
      [Op.Position 2147483647]).pos = 2147483647 ∧
    (WriteBoolArray exactReallocate Endian.little
      (run exactReallocate Endian.little (InteropOutputStream.new (zeroMemory 0))
        [Op.Position 2147483647]) (fun _ => true) 1).pos = -2147483648 ∧
    ¬ ((WriteBoolArray exactReallocate Endian.little
      (run exactReallocate Endian.little (InteropOutputStream.new (zeroMemory 0))
        [Op.Position 2147483647]) (fun _ => true) 1).pos =
      (run exactReallocate Endian.little (InteropOutputStream.new (zeroMemory 0))
        [Op.Position 2147483647]).pos + 1) := by
  refine ⟨by decide, by decide, by decide⟩

/-! ## C12: `Synchronize` -/

section c12

variable (R : Reallocator) (h : Endian) (s : InteropOutputStream)

theorem growingReallocate_conforms : Reallocator.Conforms growingReallocate := by
  intro m n
  exact ⟨le_max_right _ _, fun _ _ _ => rfl⟩

theorem growingReallocate_grows : Reallocator.Grows growingReallocate :=
  fun _ _ => le_max_left _ _

theorem growingReallocate_keepsLength : Reallocator.KeepsLength growingReallocate :=
  fun _ _ => rfl

theorem EnsureCapacity_length (hK : R.KeepsLength) (reqCap : Int) :
    (EnsureCapacity R s reqCap).mem.length = s.mem.length := by
  unfold EnsureCapacity
  split
  · exact hK _ _
  · rfl

/-- The published length never exceeds the cached capacity. -/
theorem length_le_cap_apply (hK : R.KeepsLength) (op : Op) (hpos : s.pos ≤ s.cap)
    (hs : s.mem.length ≤ s.cap) : (op.apply R h s).mem.length ≤ (op.apply R h s).cap := by
  refine apply_induction R h s (fun t => t.mem.length ≤ t.cap) (fun t r ht => ?_)
    (fun t d tr ht => ht) (fun t p ht => ht) op (fun _ => hpos) hs
  show (EnsureCapacity R t r).mem.length ≤ (EnsureCapacity R t r).cap
  rw [EnsureCapacity_length R t hK]
  exact le_trans ht (EnsureCapacity_cap_mono R t r)

theorem length_le_cap_run (hR : R.Conforms) (hK : R.KeepsLength) (ops : List Op)
    (hinv : Inv R s) (hs : s.mem.length ≤ s.cap) :
    (run R h s ops).mem.length ≤ (run R h s ops).cap := by
  unfold run
  induction ops generalizing s with
  | nil => exact hs
  | cons op ops ih =>
    exact ih (op.apply R h s) (Inv_apply R h s hR op hinv)
      (length_le_cap_apply R h s hK op hinv.1 hs)

end c12

/-- C12: for every stream state, `Synchronize()` sets the logical length of the region to the
current cursor and changes nothing else (cursor, capacity, every byte of the buffer and the
record of calls are as before); consequently, on every stream reached from construction, the
published length is at most the capacity, and it stays so through every later operation when
`Reallocate` leaves the length alone and the region starts with `length <= capacity`. -/
theorem Synchronize_spec (R : Reallocator) (h : Endian) (s : InteropOutputStream) :
    ((Synchronize s).mem.length = s.pos ∧ (Synchronize s).pos = s.pos ∧
      (Synchronize s).cap = s.cap ∧ (Synchronize s).mem.capacity = s.mem.capacity ∧
      (Synchronize s).mem.data = s.mem.data ∧ (Synchronize s).trace = s.trace) ∧
    (R.Conforms → Reachable R h s →
      (Synchronize s).mem.length ≤ (Synchronize s).mem.capacity) ∧
    (R.Conforms → R.KeepsLength → ∀ (mem : InteropMemory) (ops : List Op),
      0 ≤ mem.capacity → mem.length ≤ mem.capacity →
      (run R h (InteropOutputStream.new mem) ops).mem.length ≤
        (run R h (InteropOutputStream.new mem) ops).mem.capacity) := by
  refine ⟨⟨rfl, rfl, rfl, rfl, rfl, rfl⟩, fun hR hs => ?_, fun hR hK mem ops hm hl => ?_⟩
  · obtain ⟨hpos, _, hcap⟩ := hs.inv hR
    show s.pos ≤ s.mem.capacity
    omega
  · have hinv := Inv_new R mem hm
    have h1 := length_le_cap_run R h _ hR hK ops hinv hl
    have h2 := (Inv_run R h _ hR ops hinv).2.2.1
    exact le_trans h1 h2

/-- Witness of `Synchronize_spec`: two bytes written and published on a region of four bytes. -/
theorem Synchronize_spec_witness :
    exactReallocate.Conforms ∧
    Reachable exactReallocate Endian.little
      (run exactReallocate Endian.little (InteropOutputStream.new (zeroMemory 4))
        [Op.WriteInt16 7]) ∧
    (Synchronize (run exactReallocate Endian.little (InteropOutputStream.new (zeroMemory 4))
        [Op.WriteInt16 7])).mem.length ≤
      (Synchronize (run exactReallocate Endian.little (InteropOutputStream.new (zeroMemory 4))
        [Op.WriteInt16 7])).mem.capacity :=
  ⟨exactReallocate_conforms, ⟨zeroMemory 4, [Op.WriteInt16 7], by decide, rfl⟩,
    (Synchronize_spec exactReallocate Endian.little
      (run exactReallocate Endian.little (InteropOutputStream.new (zeroMemory 4))
        [Op.WriteInt16 7])).2.1 exactReallocate_conforms
      ⟨zeroMemory 4, [Op.WriteInt16 7], by decide, rfl⟩⟩

/-! ## C13: the capacity only grows -/

section c13

variable (R : Reallocator) (h : Endian) (s : InteropOutputStream)

theorem cap_mono_apply (op : Op) : s.cap ≤ (op.apply R h s).cap :=
  apply_induction R h s (fun t => s.cap ≤ t.cap)
    (fun t r ht => le_trans ht (EnsureCapacity_cap_mono R t r))
    (fun _ _ _ ht => ht) (fun _ _ ht => ht) op (fun hs => hs) (le_refl _)

theorem cap_mono_run (ops : List Op) : s.cap ≤ (run R h s ops).cap := by
  unfold run
  induction ops generalizing s with
  | nil => exact le_refl _
  | cons op ops ih => exact le_trans (cap_mono_apply R h s op) (ih (op.apply R h s))

theorem capacity_mono_apply (hG : R.Grows) (op : Op) :
    s.mem.capacity ≤ (op.apply R h s).mem.capacity := by
  refine apply_induction R h s (fun t => s.mem.capacity ≤ t.mem.capacity)
    (fun t r ht => ?_) (fun _ _ _ ht => ht) (fun _ _ ht => ht) op (fun hs => hs) (le_refl _)
  show s.mem.capacity ≤ (EnsureCapacity R t r).mem.capacity
  unfold EnsureCapacity
  split
  · exact le_trans ht (hG _ _)
  · exact ht

end c13

/-- C13: for every stream state and every operation of the stream (append write, patch write,
array write, `Position(n)` with any `n`, `Reserve(n)`, `Synchronize()`), the capacity `cap`
after the operation is at least the capacity before it; the same holds for the capacity of the
region when `Reallocate` never shrinks it. -/
theorem capacity_only_grows (R : Reallocator) (h : Endian) (s : InteropOutputStream) (op : Op) :
    s.cap ≤ (op.apply R h s).cap ∧
    (R.Grows → s.mem.capacity ≤ (op.apply R h s).mem.capacity) :=
  ⟨cap_mono_apply R h s op, fun hG => capacity_mono_apply R h s hG op⟩

/-- Witness of `capacity_only_grows`: `Position(3)` on a stream over a region of 8 bytes with a
reallocator that never shrinks. -/
theorem capacity_only_grows_witness :
    growingReallocate.Grows ∧
    (InteropOutputStream.new (zeroMemory 8)).mem.capacity ≤
      ((Op.Position 3).apply growingReallocate Endian.little
        (InteropOutputStream.new (zeroMemory 8))).mem.capacity :=
  ⟨growingReallocate_grows,
    (capacity_only_grows growingReallocate Endian.little (InteropOutputStream.new (zeroMemory 8))
      (Op.Position 3)).2 growingReallocate_grows⟩

/-! ## C16: the frame of a patch write -/

section c16

variable (R : Reallocator) (h : Endian) (s : InteropOutputStream)

/-- Nothing is reallocated when the requested end lies within the capacity. -/
theorem EnsureCapacity_of_le (o : Int) (size : Nat) (h0 : 0 ≤ o) (hc : o + size ≤ s.cap) :
    EnsureCapacity R s (wrap32 (o + size)) = s := by
  have hw : wrap32 (o + size) ≤ o + size := by
    unfold wrap32
    omega
  unfold EnsureCapacity
  rw [if_neg (by omega)]

theorem PatchFrame_store (o : Int) (size : Nat) (val : Int) (h0 : 0 ≤ o)
    (hc : o + size ≤ s.cap) :
    PatchFrame s (store (EnsureCapacity R s (wrap32 (o + size))) h o size val) o size := by
  rw [EnsureCapacity_of_le R s o size h0 hc]
  exact ⟨fun i hi => by rw [store_data, if_neg hi], rfl, rfl, rfl⟩

theorem KeptFrom_of_frame {t : InteropOutputStream} (o : Int) (size : Nat) (n : Int)
    (hf : PatchFrame s t o size) (hn : (size : Int) ≤ n) : KeptFrom s t (o + n) :=
  fun i hi => hf.1 i (by omega)

/-- After a reservation that does not overflow, the capacity covers the reserved bytes,
whatever operations follow. -/
theorem afterReserve_cap (n : Int) (ops : List Op) (hmin : INT32_MIN ≤ s.pos + n)
    (hmax : s.pos + n ≤ INT32_MAX) :
    (afterReserve R h s n ops).1 + n ≤ (afterReserve R h s n ops).2.cap := by
  have hw : wrap32 (s.pos + n) = s.pos + n := wrap32_of_range _ hmin hmax
  have hge := EnsureCapacity_cap_ge R s (wrap32 (s.pos + n))
  have hm := cap_mono_run R h (Reserve R s n).2 ops
  have h1 : (afterReserve R h s n ops).1 = s.pos := by
    simp only [afterReserve, Reserve, EnsureCapacity_pos]
  have h2 : (Reserve R s n).2.cap = (EnsureCapacity R s (wrap32 (s.pos + n))).cap := rfl
  rw [h2] at hm
  rw [h1]
  show s.pos + n ≤ (run R h (Reserve R s n).2 ops).cap
  omega

end c16

/-- C16: for every stream state, offset `o >= 0` and width `w` in {1, 2, 4, 8} with
`o + w <= cap`, a patch write at `o` changes no byte outside `[o, o + w)` and changes neither
the capacity nor the cursor. Hence after `r = Reserve(n)` with `n >= w`, any further operations,
and a patch write of width `w` at `r` (with `r >= 0` and `r + w <= cap`, which the reservation
ensures when `r + n` does not overflow), every byte at an offset `>= r + n` holds the value it
held before the patch. -/
theorem patch_write_frame (R : Reallocator) (h : Endian) (s : InteropOutputStream) :
    (∀ o v, 0 ≤ o → o + 1 ≤ s.cap → PatchFrame s (WriteInt8At R h s v o) o 1) ∧
    (∀ o v, 0 ≤ o → o + 2 ≤ s.cap → PatchFrame s (WriteInt16At R h s o v) o 2) ∧
    (∀ o v, 0 ≤ o → o + 4 ≤ s.cap → PatchFrame s (WriteInt32At R h s o v) o 4) ∧
    (∀ o v, 0 ≤ o → o + 8 ≤ s.cap → PatchFrame s (WriteInt64At R h s o v) o 8) ∧
    (∀ n ops v, 0 ≤ (afterReserve R h s n ops).1 →
      (afterReserve R h s n ops).1 + 1 ≤ (afterReserve R h s n ops).2.cap → 1 ≤ n →
      KeptFrom (afterReserve R h s n ops).2
        (WriteInt8At R h (afterReserve R h s n ops).2 v (afterReserve R h s n ops).1)
        ((afterReserve R h s n ops).1 + n)) ∧
    (∀ n ops v, 0 ≤ (afterReserve R h s n ops).1 →
      (afterReserve R h s n ops).1 + 2 ≤ (afterReserve R h s n ops).2.cap → 2 ≤ n →
      KeptFrom (afterReserve R h s n ops).2
        (WriteInt16At R h (afterReserve R h s n ops).2 (afterReserve R h s n ops).1 v)
        ((afterReserve R h s n ops).1 + n)) ∧
    (∀ n ops v, 0 ≤ (afterReserve R h s n ops).1 →
      (afterReserve R h s n ops).1 + 4 ≤ (afterReserve R h s n ops).2.cap → 4 ≤ n →
      KeptFrom (afterReserve R h s n ops).2
        (WriteInt32At R h (afterReserve R h s n ops).2 (afterReserve R h s n ops).1 v)
        ((afterReserve R h s n ops).1 + n)) ∧
    (∀ n ops v, 0 ≤ (afterReserve R h s n ops).1 →
      (afterReserve R h s n ops).1 + 8 ≤ (afterReserve R h s n ops).2.cap → 8 ≤ n →
      KeptFrom (afterReserve R h s n ops).2
        (WriteInt64At R h (afterReserve R h s n ops).2 (afterReserve R h s n ops).1 v)
        ((afterReserve R h s n ops).1 + n)) ∧
    (∀ n ops, INT32_MIN ≤ s.pos + n → s.pos + n ≤ INT32_MAX →
      (afterReserve R h s n ops).1 + n ≤ (afterReserve R h s n ops).2.cap) :=
  ⟨fun o v h0 hc => PatchFrame_store R h s o 1 v h0 hc,
    fun o v h0 hc => PatchFrame_store R h s o 2 v h0 hc,
    fun o v h0 hc => PatchFrame_store R h s o 4 v h0 hc,
    fun o v h0 hc => PatchFrame_store R h s o 8 v h0 hc,
    fun n _ v h0 hc hn => KeptFrom_of_frame _ _ 1 n (PatchFrame_store R h _ _ 1 v h0 hc) hn,
    fun n _ v h0 hc hn => KeptFrom_of_frame _ _ 2 n (PatchFrame_store R h _ _ 2 v h0 hc) hn,
    fun n _ v h0 hc hn => KeptFrom_of_frame _ _ 4 n (PatchFrame_store R h _ _ 4 v h0 hc) hn,
    fun n _ v h0 hc hn => KeptFrom_of_frame _ _ 8 n (PatchFrame_store R h _ _ 8 v h0 hc) hn,
    fun n ops hmin hmax => afterReserve_cap R h s n ops hmin hmax⟩

/-- Witness of `patch_write_frame`: four bytes reserved on a fresh stream, two bytes appended,
then an `int32` patched into the reservation. -/
theorem patch_write_frame_witness :
    (0 : Int) ≤ (afterReserve exactReallocate Endian.little
      (InteropOutputStream.new (zeroMemory 0)) 4 [Op.WriteInt16 513]).1 ∧
    (afterReserve exactReallocate Endian.little
      (InteropOutputStream.new (zeroMemory 0)) 4 [Op.WriteInt16 513]).1 + 4 ≤
      (afterReserve exactReallocate Endian.little
        (InteropOutputStream.new (zeroMemory 0)) 4 [Op.WriteInt16 513]).2.cap ∧
    (4 : Int) ≤ 4 ∧
    KeptFrom (afterReserve exactReallocate Endian.little
        (InteropOutputStream.new (zeroMemory 0)) 4 [Op.WriteInt16 513]).2
      (WriteInt32At exactReallocate Endian.little
        (afterReserve exactReallocate Endian.little
          (InteropOutputStream.new (zeroMemory 0)) 4 [Op.WriteInt16 513]).2
        (afterReserve exactReallocate Endian.little
          (InteropOutputStream.new (zeroMemory 0)) 4 [Op.WriteInt16 513]).1 6)
      ((afterReserve exactReallocate Endian.little
        (InteropOutputStream.new (zeroMemory 0)) 4 [Op.WriteInt16 513]).1 + 4) :=
  ⟨by decide, by decide, by decide,
    (patch_write_frame exactReallocate Endian.little
      (InteropOutputStream.new (zeroMemory 0))).2.2.2.2.2.2.1 4 [Op.WriteInt16 513] 6
      (by decide) (by decide) (by decide)⟩

/-! ## C17: bulk array writes and element-wise writes -/

section c17

variable (R : Reallocator) (h : Endian) (s : InteropOutputStream)

theorem Reachable.toInv {R : Reallocator} {h : Endian} {s : InteropOutputStream}
    (hR : R.Conforms) (hs : Reachable R h s) : Inv R s := by
  obtain ⟨mem, ops, hm, rfl⟩ := hs
  exact Inv_run R h _ hR ops (Inv_new R mem hm)

/-- Byte `k * w + j` of an array of `w`-byte scalars is byte `j` of element `k`. -/
theorem arrayBytes_at (w : Nat) (val : Int → Int) (k : Nat) (j : Int) (h0 : 0 ≤ j)
    (hj : j < w) : arrayBytes h w val ((w : Int) * k + j) = hostByte h w (val k) j.toNat := by
  have hw : (w : Int) ≠ 0 := by omega
  have e1 : ((w : Int) * k + j) / w = k := by
    rw [add_comm, Int.add_mul_ediv_left _ _ hw, Int.ediv_eq_zero_of_lt h0 hj, zero_add]
  have e2 : ((w : Int) * k + j) % w = j := by
    rw [add_comm, Int.add_mul_emod_self_left, Int.emod_eq_of_lt h0 hj]
  unfold arrayBytes
  rw [e1, e2]

/-- State after the element-wise write of the first `n` elements, when the cursor does not
overflow: the cursor has advanced by `w * n`, the invariant holds, and below the new cursor the
bytes are those of the array from the old cursor on, and the old ones before it. -/
theorem elementwise_state (hR : R.Conforms) (w : Nat) (hw : 0 < w) (val : Int → Int)
    (hinv : Inv R s) (hmin : INT32_MIN ≤ s.pos) (n : Nat)
    (hmax : s.pos + (w : Int) * n ≤ INT32_MAX) :
    ((List.range n).foldl
        (fun acc (i : Nat) => IGNITE_INTEROP_OUT_WRITE R h acc (val i) w w) s).pos =
      s.pos + (w : Int) * n ∧
    Inv R ((List.range n).foldl
        (fun acc (i : Nat) => IGNITE_INTEROP_OUT_WRITE R h acc (val i) w w) s) ∧
    ∀ i : Int, 0 ≤ i → i < s.pos + (w : Int) * n →
      ((List.range n).foldl
        (fun acc (i : Nat) => IGNITE_INTEROP_OUT_WRITE R h acc (val i) w w) s).mem.data i =
      if s.pos ≤ i then arrayBytes h w val (i - s.pos) else s.mem.data i := by
  induction n with
  | zero =>
    refine ⟨by simp, hinv, fun i h0 hi => ?_⟩
    have : ¬ s.pos ≤ i := by
      simp only [Nat.cast_zero, mul_zero, add_zero] at hi
      omega
    simp [this]
  | succ n ih =>
    have hwn : (0 : Int) ≤ (w : Int) * n := Int.mul_nonneg (Int.ofNat_nonneg _) (Int.ofNat_nonneg _)
    have e : (w : Int) * ((n + 1 : Nat) : Int) = (w : Int) * n + w := by
      push_cast
      ring
    rw [e] at hmax ⊢
    obtain ⟨ihp, ihinv, ihd⟩ := ih (by omega)
    rw [List.range_succ, List.foldl_append]
    simp only [List.foldl_cons, List.foldl_nil]
    generalize (List.range n).foldl
      (fun acc (i : Nat) => IGNITE_INTEROP_OUT_WRITE R h acc (val i) w w) s = t at ihp ihinv ihd ⊢
    unfold INT32_MIN at hmin
    unfold INT32_MAX at hmax
    refine ⟨?_, Inv_OUT_WRITE R h t hR _ _ _ ihinv, fun i h0 hi => ?_⟩
    · rw [OUT_WRITE_pos, ihp, wrap32_of_range _ (by omega) (by omega)]
      ring
    · by_cases hlt : i < t.pos
      · rw [OUT_WRITE_data_below R h t hR _ _ _ i h0 hlt (le_trans ihinv.1 ihinv.2.2.1)]
        exact ihd i h0 (by omega)
      · have hge : t.pos ≤ i := not_lt.1 hlt
        rw [OUT_WRITE_data, if_pos ⟨hge, by omega⟩, if_pos (by omega)]
        have hi2 : i - s.pos = (w : Int) * n + (i - t.pos) := by omega
        rw [hi2, arrayBytes_at h w val n (i - t.pos) (by omega) (by omega)]

/-- State after the bulk copy of `count` bytes when the cursor does not overflow. -/
theorem bulk_state (hR : R.Conforms) (src : Int → Nat) (count : Int) (hinv : Inv R s)
    (hmin : INT32_MIN ≤ s.pos) (h0 : 0 ≤ count) (hcount : count ≤ INT32_MAX)
    (hmax : s.pos + count ≤ INT32_MAX) :
    (CopyAndShift R s src 0 (wrap32 count)).pos = s.pos + count ∧
    ∀ i : Int, 0 ≤ i → i < s.pos + count →
      (CopyAndShift R s src 0 (wrap32 count)).mem.data i =
        if s.pos ≤ i then src (i - s.pos) else s.mem.data i := by
  unfold INT32_MIN at hmin
  unfold INT32_MAX at hmax hcount
  have hc : wrap32 count = count := wrap32_of_range _ (by omega) (by omega)
  have hsz : (toSizeT count : Int) = count := toSizeT_of_nonneg count h0 (by omega)
  rw [hc]
  refine ⟨?_, fun i hi0 hi => ?_⟩
  · simp only [CopyAndShift, Shift_pos, memcpy_pos, EnsureCapacity_pos]
    exact wrap32_of_range _ (by omega) hmax
  · by_cases hlt : i < s.pos
    · rw [CopyAndShift_data_below R s hR src 0 count i hi0 hlt (le_trans hinv.1 hinv.2.2.1),
        if_neg (by omega)]
    · rw [CopyAndShift_data, if_pos (by omega), if_pos (by omega), zero_add]

theorem run_elementOps_eq_foldl (w : Nat) (val : Int → Int) (len : Int) (mk : Int → Op)
    (hmk : ∀ t i, (mk i).apply R h t = IGNITE_INTEROP_OUT_WRITE R h t (val i) w w) :
    run R h s (elementOps len mk) =
      (List.range len.toNat).foldl
        (fun acc (i : Nat) => IGNITE_INTEROP_OUT_WRITE R h acc (val i) w w) s := by
  unfold run elementOps
  rw [List.foldl_map]
  congr 1
  funext acc i
  exact hmk acc i

/-- A bulk write of an array of `w`-byte scalars agrees with the element-wise writes. -/
theorem BulkAgrees_array (hR : R.Conforms) (hs : Reachable R h s) (w : Nat) (hw : 0 < w)
    (val : Int → Int) (len : Int) (mk : Int → Op)
    (hmk : ∀ t i, (mk i).apply R h t = IGNITE_INTEROP_OUT_WRITE R h t (val i) w w)
    (hmin : INT32_MIN ≤ s.pos) (hmax : s.pos ≤ INT32_MAX) (h0 : 0 ≤ len)
    (hL : len * w ≤ INT32_MAX) :
    BulkAgrees (CopyAndShift R s (arrayBytes h w val) 0 (wrap32 (len * w)))
      (run R h s (elementOps len mk)) := by
  have hinv := hs.toInv hR
  have hl : ((len.toNat : Nat) : Int) = len := Int.toNat_of_nonneg h0
  have hcount : (0 : Int) ≤ len * w := Int.mul_nonneg h0 (Int.ofNat_nonneg _)
  have hcomm : (w : Int) * (len.toNat : Int) = len * w := by
    rw [hl]
    ring
  rw [run_elementOps_eq_foldl R h s w val len mk hmk]
  by_cases hov : s.pos + len * w ≤ INT32_MAX
  · obtain ⟨bp, bd⟩ := bulk_state R s hR (arrayBytes h w val) (len * w) hinv hmin hcount hL hov
    obtain ⟨ep, _, ed⟩ := elementwise_state R h s hR w hw val hinv hmin len.toNat
      (by rw [hcomm]; exact hov)
    rw [hcomm] at ep ed
    refine ⟨by rw [bp, ep], fun i hi0 hi => ?_⟩
    rw [bp] at hi
    rw [bd i hi0 hi, ed i hi0 hi]
  · have hbp : (CopyAndShift R s (arrayBytes h w val) 0 (wrap32 (len * w))).pos =
        wrap32 (s.pos + len * w) := by
      simp only [CopyAndShift, Shift_pos, memcpy_pos, EnsureCapacity_pos]
      unfold wrap32
      omega
    have hep := forLoop_pos s (w : Int)
      (fun t i => IGNITE_INTEROP_OUT_WRITE R h t (val i) w w)
      (fun t i => OUT_WRITE_pos R h t _ _ _) len hmin hmax
    rw [forLoop_eq_foldl, hcomm] at hep
    refine ⟨by rw [hbp, hep], fun i hi0 hi => ?_⟩
    rw [hbp] at hi
    unfold INT32_MIN at hmin
    unfold INT32_MAX at hmax hL hov
    unfold wrap32 at hi
    omega

/-- A bulk write is one `memcpy` of `count` bytes at the cursor. -/
theorem CopiesBytes_CopyAndShift (src : Int → Nat) (count : Int) (h0 : 0 ≤ count)
    (hmax : count ≤ INT32_MAX) :
    CopiesBytes R s (CopyAndShift R s src 0 (wrap32 count)) count := by
  unfold INT32_MAX at hmax
  have hc : wrap32 count = count := wrap32_of_range _ (by omega) hmax
  have hsz : (toSizeT count : Int) = count := toSizeT_of_nonneg count h0 (by omega)
  have hszn : toSizeT count = count.toNat := by omega
  unfold CopiesBytes
  simp only [hc, CopyAndShift, newEvents, Shift, memcpy, EnsureCapacity_pos, hszn]
  rw [EnsureCapacity_trace, List.append_assoc, List.drop_left, List.drop_left]

end c17

/-- C17: bulk integer-array writes agree with element-wise writes. For every array `val` of
`len >= 0` elements with `len * width` not overflowing, on every stream reached from
construction (cursor an `int32_t`, `Reallocate` meeting its contract),
`WriteInt16Array` / `WriteUInt16Array` / `WriteInt32Array` / `WriteInt64Array(val, len)` copies
`len*2` / `len*2` / `len*4` / `len*8` bytes in one `memcpy` and yields the same cursor and the
same bytes in `[0, cursor)` as calling `WriteInt16` / `WriteUInt16` / `WriteInt32` /
`WriteInt64` on `val[0], ..., val[len-1]` in order. -/
theorem bulk_array_writes_agree (R : Reallocator) (h : Endian) (s : InteropOutputStream)
    (val : Int → Int) (len : Int) (hR : R.Conforms) (hs : Reachable R h s)
    (hmin : INT32_MIN ≤ s.pos) (hmax : s.pos ≤ INT32_MAX) (h0 : 0 ≤ len) :
    (len * 2 ≤ INT32_MAX →
      BulkAgrees (WriteInt16Array R h s val len)
        (run R h s (elementOps len (fun i => Op.WriteInt16 (val i)))) ∧
      CopiesBytes R s (WriteInt16Array R h s val len) (len * 2) ∧
      BulkAgrees (WriteUInt16Array R h s val len)
        (run R h s (elementOps len (fun i => Op.WriteUInt16 (val i)))) ∧
      CopiesBytes R s (WriteUInt16Array R h s val len) (len * 2)) ∧
    (len * 4 ≤ INT32_MAX →
      BulkAgrees (WriteInt32Array R h s val len)
        (run R h s (elementOps len (fun i => Op.WriteInt32 (val i)))) ∧
      CopiesBytes R s (WriteInt32Array R h s val len) (len * 4)) ∧
    (len * 8 ≤ INT32_MAX →
      BulkAgrees (WriteInt64Array R h s val len)
        (run R h s (elementOps len (fun i => Op.WriteInt64 (val i)))) ∧
      CopiesBytes R s (WriteInt64Array R h s val len) (len * 8)) := by
  refine ⟨fun hL => ⟨?_, ?_, ?_, ?_⟩, fun hL => ⟨?_, ?_⟩, fun hL => ⟨?_, ?_⟩⟩
  · exact BulkAgrees_array R h s hR hs 2 (by decide) val len _ (fun _ _ => rfl) hmin hmax h0 hL
  · exact CopiesBytes_CopyAndShift R s _ (len * 2) (by omega) hL
  · exact BulkAgrees_array R h s hR hs 2 (by decide) val len _ (fun _ _ => rfl) hmin hmax h0 hL
  · exact CopiesBytes_CopyAndShift R s _ (len * 2) (by omega) hL
  · exact BulkAgrees_array R h s hR hs 4 (by decide) val len _ (fun _ _ => rfl) hmin hmax h0 hL
  · exact CopiesBytes_CopyAndShift R s _ (len * 4) (by omega) hL
  · exact BulkAgrees_array R h s hR hs 8 (by decide) val len _ (fun _ _ => rfl) hmin hmax h0 hL
  · exact CopiesBytes_CopyAndShift R s _ (len * 8) (by omega) hL

/-- Witness of `bulk_array_writes_agree`: three `int32` values written on a fresh stream over an
empty region; the bulk write grows once, to 12 bytes, the element-wise writes grow three times,
to 16 bytes, so the capacities differ while cursor and bytes agree. -/
theorem bulk_array_writes_agree_witness :
    exactReallocate.Conforms ∧
    Reachable exactReallocate Endian.little (InteropOutputStream.new (zeroMemory 0)) ∧
    INT32_MIN ≤ (InteropOutputStream.new (zeroMemory 0)).pos ∧
    (InteropOutputStream.new (zeroMemory 0)).pos ≤ INT32_MAX ∧ (0 : Int) ≤ 3 ∧
    (3 : Int) * 4 ≤ INT32_MAX ∧
    BulkAgrees
      (WriteInt32Array exactReallocate Endian.little (InteropOutputStream.new (zeroMemory 0))
        (fun i => i + 1) 3)
      (run exactReallocate Endian.little (InteropOutputStream.new (zeroMemory 0))
        (elementOps 3 (fun i => Op.WriteInt32 (i + 1)))) ∧
    (WriteInt32Array exactReallocate Endian.little (InteropOutputStream.new (zeroMemory 0))
      (fun i => i + 1) 3).cap = 12 ∧
    (run exactReallocate Endian.little (InteropOutputStream.new (zeroMemory 0))
      (elementOps 3 (fun i => Op.WriteInt32 (i + 1)))).cap = 16 :=
  ⟨exactReallocate_conforms, ⟨zeroMemory 0, [], by decide, rfl⟩, by decide, by decide, by decide,
    by decide,
    ((bulk_array_writes_agree exactReallocate Endian.little
      (InteropOutputStream.new (zeroMemory 0)) (fun i => i + 1) 3 exactReallocate_conforms
      ⟨zeroMemory 0, [], by decide, rfl⟩ (by decide) (by decide) (by decide)).2.1
      (by decide)).1,
    by decide, by decide⟩

/-! ## C18: the encoding of `bool` -/

section c18

variable (R : Reallocator) (h : Endian) (s : InteropOutputStream)

theorem WriteBool_byte (b : Bool) :
    (WriteBool R h s b).mem.data s.pos = if b then 1 else 0 := by
  have key := OUT_WRITE_bytes R h s (if b then 1 else 0) 1 1 0 (by decide)
  rw [hostByte_eq_leByte h 1 _ 0 (Or.inr rfl) (by decide)] at key
  simp only [Nat.cast_zero, add_zero] at key
  show (IGNITE_INTEROP_OUT_WRITE R h s (if b then 1 else 0) 1 1).mem.data s.pos = _
  rw [key]
  cases b <;> decide

theorem WriteBool_events (b : Bool) :
    newEvents s (WriteBool R h s b) =
      newEvents s (EnsureCapacity R s (wrap32 (s.pos + 1))) ++ [MemEvent.store s.pos 1] := by
  simp only [WriteBool, WriteInt8, IGNITE_INTEROP_OUT_WRITE, newEvents, Shift, store,
    EnsureCapacity_pos]
  rw [EnsureCapacity_trace, List.append_assoc, List.drop_left, List.drop_left]

theorem WriteBoolArray_bytes (hR : R.Conforms) (hs : Reachable R h s) (val : Int → Bool)
    (len : Int) (hmin : INT32_MIN ≤ s.pos) (h0 : 0 ≤ len) (hmax : s.pos + len ≤ INT32_MAX)
    (k : Nat) (hk : (k : Int) < len) (hpk : 0 ≤ s.pos + k) :
    (WriteBoolArray R h s val len).mem.data (s.pos + k) = if val k then 1 else 0 := by
  have hl : ((len.toNat : Nat) : Int) = len := Int.toNat_of_nonneg h0
  have key := (elementwise_state R h s hR 1 (by decide) (fun i => if val i then 1 else 0)
    (hs.toInv hR) hmin len.toNat (by rw [hl]; simpa using hmax)).2.2 (s.pos + k) hpk
    (by rw [hl]; simp only [Nat.cast_one, one_mul]; omega)
  rw [if_pos (by omega)] at key
  have hb : arrayBytes h 1 (fun i => if val i then (1 : Int) else 0) (s.pos + k - s.pos) =
      if val k then 1 else 0 := by
    have e : s.pos + (k : Int) - s.pos = ((1 : Nat) : Int) * k + 0 := by
      push_cast
      ring
    rw [e, arrayBytes_at h 1 _ k 0 (le_refl _) (by decide),
      hostByte_eq_leByte h 1 _ _ (Or.inr rfl) (by decide)]
    cases val k <;> decide
  rw [hb] at key
  rw [← key]
  show (forLoop len (fun t i => IGNITE_INTEROP_OUT_WRITE R h t (if val i then 1 else 0) 1 1)
    s).mem.data (s.pos + k) = _
  rw [forLoop_eq_foldl]
  rfl

end c18

/-- C18 (as amended): for every stream with cursor `p`, `WriteBool(true)` stores the single
byte 1 at offset `p` and `WriteBool(false)` stores the single byte 0 at offset `p`, and when `p`
(an `int32_t`) is below `INT32_MAX` the cursor advances by exactly 1. No other byte value is
produced: the byte stored by `WriteBool` is 0 or 1, every turn of `WriteBoolArray` is one
`WriteBool`, and after `WriteBoolArray(val, len)` on a stream reached from construction (with
`p + len <= INT32_MAX`) byte `p + k` is 1 or 0 as `val[k]` is true or false. -/
theorem bool_encoding (R : Reallocator) (h : Endian) (s : InteropOutputStream) :
    ((WriteBool R h s true).mem.data s.pos = 1 ∧ (WriteBool R h s false).mem.data s.pos = 0) ∧
    (∀ b, newEvents s (WriteBool R h s b) =
      newEvents s (EnsureCapacity R s (wrap32 (s.pos + 1))) ++ [MemEvent.store s.pos 1]) ∧
    (∀ b, (WriteBool R h s b).mem.data s.pos = 0 ∨ (WriteBool R h s b).mem.data s.pos = 1) ∧
    (INT32_MIN ≤ s.pos → s.pos + 1 ≤ INT32_MAX → ∀ b, (WriteBool R h s b).pos = s.pos + 1) ∧
    (∀ (val : Int → Bool) (k : Nat), WriteBoolArray R h s val ((k : Int) + 1) =
      WriteBool R h (WriteBoolArray R h s val k) (val k)) ∧
    (R.Conforms → Reachable R h s → ∀ (val : Int → Bool) (len : Int) (k : Nat),
      INT32_MIN ≤ s.pos → 0 ≤ len → s.pos + len ≤ INT32_MAX → (k : Int) < len →
      0 ≤ s.pos + k →
      (WriteBoolArray R h s val len).mem.data (s.pos + k) = if val k then 1 else 0) := by
  refine ⟨⟨WriteBool_byte R h s true, WriteBool_byte R h s false⟩,
    fun b => WriteBool_events R h s b, fun b => ?_, fun hmin hmax b => ?_,
    fun val k => forLoop_succ s k _,
    fun hR hs val len k hmin h0 hmax hk hpk =>
      WriteBoolArray_bytes R h s hR hs val len hmin h0 hmax k hk hpk⟩
  · rw [WriteBool_byte]
    cases b
    · exact Or.inl rfl
    · exact Or.inr rfl
  · unfold INT32_MIN at hmin
    unfold INT32_MAX at hmax
    show (IGNITE_INTEROP_OUT_WRITE R h s _ 1 1).pos = _
    rw [OUT_WRITE_pos, wrap32_of_range _ (by omega) hmax]

/-- Witness of `bool_encoding`: `WriteBool(true)` on a fresh stream advances the cursor by 1. -/
theorem bool_encoding_witness :
    INT32_MIN ≤ (InteropOutputStream.new (zeroMemory 0)).pos ∧
    (InteropOutputStream.new (zeroMemory 0)).pos + 1 ≤ INT32_MAX ∧
    (WriteBool exactReallocate Endian.little (InteropOutputStream.new (zeroMemory 0)) true).pos =
      (InteropOutputStream.new (zeroMemory 0)).pos + 1 :=
  ⟨by decide, by decide,
    (bool_encoding exactReallocate Endian.little
      (InteropOutputStream.new (zeroMemory 0))).2.2.2.1 (by decide) (by decide) true⟩

/-- C18 as stated fails when the cursor is `INT32_MAX`: `WriteBool(true)` leaves the cursor at
`INT32_MIN`, so it has not advanced by exactly 1. -/
theorem bool_encoding_counterexample :
    (run exactReallocate Endian.little (InteropOutputStream.new (zeroMemory 0))
      [Op.Position 2147483647]).pos = 2147483647 ∧
    (WriteBool exactReallocate Endian.little
      (run exactReallocate Endian.little (InteropOutputStream.new (zeroMemory 0))
        [Op.Position 2147483647]) true).pos = -2147483648 ∧
    ¬ ((WriteBool exactReallocate Endian.little
      (run exactReallocate Endian.little (InteropOutputStream.new (zeroMemory 0))
        [Op.Position 2147483647]) true).pos =
      (run exactReallocate Endian.little (InteropOutputStream.new (zeroMemory 0))
        [Op.Position 2147483647]).pos + 1) := by
  refine ⟨by decide, by decide, by decide⟩

end interop
end impl

namespace common

/-! ## C15: `StringEndsWith` -/

theorem compareChars_eq_zero (a b : List Char) : compareChars a b = 0 ↔ a = b := by
  induction a generalizing b with
  | nil => cases b <;> simp [compareChars]
  | cons x xs ih =>
    cases b with
    | nil => simp [compareChars]
    | cons y ys =>
      unfold compareChars
      by_cases h1 : x < y
      · have hne : x ≠ y := ne_of_lt h1
        simp [h1, hne]
      · by_cases h2 : y < x
        · have hne : x ≠ y := (ne_of_lt h2).symm
          simp [h1, h2, hne]
        · have heq : x = y := le_antisymm (not_lt.1 h2) (not_lt.1 h1)
          simp [h1, h2, heq, ih]

/-- What the function computes: `ending` is a suffix of `str` and is strictly shorter. -/
theorem StringEndsWith_iff (str ending : List Char) :
    StringEndsWith str ending = true ↔ ending.length < str.length ∧ ending <:+ str := by
  unfold StringEndsWith
  by_cases hlen : str.length > ending.length
  · have hdrop : (str.drop (str.length - ending.length)).length = ending.length := by
      rw [List.length_drop]
      omega
    have htake : (str.drop (str.length - ending.length)).take ending.length =
        str.drop (str.length - ending.length) := by
      rw [List.take_of_length_le (le_of_eq hdrop)]
    simp only [hlen, if_true, compare, htake, beq_iff_eq, compareChars_eq_zero, true_and]
    rw [List.suffix_iff_eq_drop]
    exact eq_comm
  · simp only [hlen, if_false]
    constructor
    · intro hf
      exact absurd hf (by decide)
    · intro hf
      exact hf.1.elim

/-- C15: `StringEndsWith(str, ending)` on `str = ending = "abc"` returns `false`, although
`"abc"` is a suffix of `"abc"`; more generally it returns `false` whenever `ending = str`
(also for two empty strings), and `true` exactly when `ending` is a suffix of `str` that is
strictly shorter than `str`. -/
theorem StringEndsWith_self_false :
    (StringEndsWith ['a', 'b', 'c'] ['a', 'b', 'c'] = false ∧
      ['a', 'b', 'c'] <:+ ['a', 'b', 'c']) ∧
    (∀ str : List Char, StringEndsWith str str = false ∧ str <:+ str) ∧
    (∀ str ending : List Char,
      StringEndsWith str ending = true ↔ ending.length < str.length ∧ ending <:+ str) := by
  refine ⟨⟨by decide, List.suffix_refl _⟩, fun str => ⟨?_, List.suffix_refl _⟩,
    StringEndsWith_iff⟩
  unfold StringEndsWith
  simp

/-! ## C20: `ToBigEndian` -/

theorem or_of_bytes (a b c d : Nat) (hb : b < 256) (hc : c < 256) (hd : d < 256) :
    (a <<< 24) ||| (b <<< 16) ||| (c <<< 8) ||| d =
      a * 16777216 + b * 65536 + c * 256 + d := by
  have e1 : (c <<< 8) ||| d = c * 256 + d := by
    rw [Nat.shiftLeft_eq, Nat.mul_comm, ← Nat.mul_add_lt_is_or (by omega : d < 2 ^ 8)]
  have e2 : (b <<< 16) ||| (c * 256 + d) = b * 65536 + (c * 256 + d) := by
    rw [Nat.shiftLeft_eq, Nat.mul_comm,
      ← Nat.mul_add_lt_is_or (by omega : c * 256 + d < 2 ^ 16)]
  have e3 : (a <<< 24) ||| (b * 65536 + (c * 256 + d)) =
      a * 16777216 + (b * 65536 + (c * 256 + d)) := by
    rw [Nat.shiftLeft_eq, Nat.mul_comm,
      ← Nat.mul_add_lt_is_or (by omega : b * 65536 + (c * 256 + d) < 2 ^ 24)]
  rw [Nat.or_assoc, Nat.or_assoc, e1, e2, e3]
  omega

/-- On a little-endian host the result is the argument with its four bytes in reverse order. -/
theorem ToBigEndian_little (v : Nat) :
    ToBigEndian Endian.little v =
      (v % 256) * 16777216 + (v / 256 % 256) * 65536 + (v / 65536 % 256) * 256 +
        v / 16777216 % 256 := by
  have hflag : (hostByte Endian.little 4 (42 : Int) 0 == 42) = true := by decide
  have hand : ∀ x : Nat, x &&& 0xFF = x % 256 := fun x => Nat.and_pow_two_sub_one_eq_mod x 8
  simp only [ToBigEndian, hflag, if_true, hand, Nat.shiftRight_eq_div_pow]
  rw [or_of_bytes _ _ _ _ (Nat.mod_lt _ (by decide)) (Nat.mod_lt _ (by decide))
    (Nat.mod_lt _ (by decide))]
  norm_num
  omega

theorem ToBigEndian_big (v : Nat) : ToBigEndian Endian.big v = v := by
  have hflag : (hostByte Endian.big 4 (42 : Int) 0 == 42) = false := by decide
  simp only [ToBigEndian, hflag]
  rfl

/-- The four bytes of a value given by its bytes `a` (most significant), `b`, `c`, `d`. -/
theorem bytes_of_sum (a b c d : Nat) (ha : a < 256) (hb : b < 256) (hc : c < 256)
    (hd : d < 256) :
    (a * 16777216 + b * 65536 + c * 256 + d) % 256 = d ∧
    (a * 16777216 + b * 65536 + c * 256 + d) / 256 % 256 = c ∧
    (a * 16777216 + b * 65536 + c * 256 + d) / 65536 % 256 = b ∧
    (a * 16777216 + b * 65536 + c * 256 + d) / 16777216 % 256 = a := by
  refine ⟨?_, ?_, ?_, ?_⟩ <;> omega

/-- C20: on a little-endian host `ToBigEndian` reverses the four bytes of its argument: for
every 32-bit unsigned value `v`, byte `i` of `ToBigEndian(v)` equals byte `3 - i` of `v` for `i`
in `0..3`, so `ToBigEndian(ToBigEndian(v)) = v`; on a big-endian host it is the identity. -/
theorem ToBigEndian_spec :
    (∀ v : Nat, v < 4294967296 → ∀ i : Nat, i < 4 →
      byteOf (ToBigEndian Endian.little v) i = byteOf v (3 - i)) ∧
    (∀ v : Nat, v < 4294967296 → ToBigEndian Endian.little (ToBigEndian Endian.little v) = v) ∧
    (∀ v : Nat, ToBigEndian Endian.big v = v) := by
  refine ⟨fun v hv i hi => ?_, fun v hv => ?_, ToBigEndian_big⟩
  · rw [ToBigEndian_little]
    obtain ⟨e0, e1, e2, e3⟩ := bytes_of_sum (v % 256) (v / 256 % 256) (v / 65536 % 256)
      (v / 16777216 % 256) (Nat.mod_lt _ (by decide)) (Nat.mod_lt _ (by decide))
      (Nat.mod_lt _ (by decide)) (Nat.mod_lt _ (by decide))
    unfold byteOf
    interval_cases i
    · simpa using e0
    · simpa using e1
    · simpa using e2
    · simpa using e3
  · obtain ⟨e0, e1, e2, e3⟩ := bytes_of_sum (v % 256) (v / 256 % 256) (v / 65536 % 256)
      (v / 16777216 % 256) (Nat.mod_lt _ (by decide)) (Nat.mod_lt _ (by decide))
      (Nat.mod_lt _ (by decide)) (Nat.mod_lt _ (by decide))
    rw [ToBigEndian_little v, ToBigEndian_little, e0, e1, e2, e3]
    clear e0 e1 e2 e3
    omega

/-- Witness of `ToBigEndian_spec`: the value `0x11223344`. -/
theorem ToBigEndian_spec_witness :
    (287454020 : Nat) < 4294967296 ∧
    ToBigEndian Endian.little (ToBigEndian Endian.little 287454020) = 287454020 :=
  ⟨by decide, ToBigEndian_spec.2.1 287454020 (by decide)⟩

end common

namespace common

/-! ## C19: `StripSurroundingWhitespaces` -/

section c19

variable (p : Char → Bool)

theorem skipLeading_eq (l : List Char) (k : Nat) :
    skipLeading p l k = k + (l.takeWhile p).length := by
  induction l generalizing k with
  | nil => rfl
  | cons c rest ih =>
    unfold skipLeading
    by_cases hc : p c = true
    · rw [if_pos hc, ih, List.takeWhile_cons, if_pos hc, List.length_cons]
      omega
    · rw [if_neg hc, List.takeWhile_cons, if_neg hc]
      rfl

theorem drop_length_takeWhile (l : List Char) :
    l.drop (l.takeWhile p).length = l.dropWhile p := by
  have h := List.takeWhile_append_dropWhile p l
  calc l.drop (l.takeWhile p).length
      = (l.takeWhile p ++ l.dropWhile p).drop (l.takeWhile p).length := by rw [h]
    _ = l.dropWhile p := List.drop_left _ _

theorem length_takeWhile_eq_iff (l : List Char) :
    (l.takeWhile p).length = l.length ↔ l.dropWhile p = [] := by
  have h := congrArg List.length (List.takeWhile_append_dropWhile p l)
  rw [List.length_append] at h
  constructor
  · intro he
    exact List.length_eq_zero.1 (by omega)
  · intro he
    rw [he] at h
    simpa using h

/-- The second loop finds the end of the string without its trailing whitespace. -/
theorem skipTrailing_spec (str : List Char) (n : Nat) (hn : n < str.length)
    (hne : (str.take (n + 1)).rdropWhile p ≠ []) :
    ∃ e, skipTrailing p str n = some e ∧ e < str.length ∧
      str.take (e + 1) = (str.take (n + 1)).rdropWhile p := by
  induction n with
  | zero =>
    have h0 : str[0]? = some str[0] := List.getElem?_eq_getElem hn
    have ht : str.take (0 + 1) = [str[0]] := by
      rw [List.take_succ, h0]
      rfl
    rw [ht, List.rdropWhile_singleton] at hne
    by_cases hc : p str[0] = true
    · rw [if_pos hc] at hne
      exact absurd rfl hne
    · refine ⟨0, ?_, hn, ?_⟩
      · unfold skipTrailing
        rw [h0]
        simp only [hc, if_false]
        rfl
      · rw [ht, List.rdropWhile_singleton, if_neg hc]
  | succ n ih =>
    have h0 : str[n + 1]? = some str[n + 1] := List.getElem?_eq_getElem hn
    have ht : str.take (n + 1 + 1) = str.take (n + 1) ++ [str[n + 1]] := by
      rw [List.take_succ, h0]
      rfl
    by_cases hc : p str[n + 1] = true
    · rw [ht, List.rdropWhile_concat_pos _ _ _ hc] at hne
      obtain ⟨e, he, hlt, hte⟩ := ih (by omega) hne
      refine ⟨e, ?_, hlt, ?_⟩
      · unfold skipTrailing
        rw [h0]
        simp only [hc, if_true]
        exact he
      · rw [hte, ht, List.rdropWhile_concat_pos _ _ _ hc]
    · refine ⟨n + 1, ?_, hn, ?_⟩
      · unfold skipTrailing
        rw [h0]
        simp only [hc, if_false]
        rfl
      · rw [ht, List.rdropWhile_concat_neg _ _ _ hc]

theorem dropWhile_append_of_exists (x y : List Char) (hx : ∃ c ∈ x, p c = false) :
    (x ++ y).dropWhile p = x.dropWhile p ++ y := by
  induction x with
  | nil =>
    obtain ⟨c, hc, _⟩ := hx
    exact absurd hc (List.not_mem_nil c)
  | cons a x ih =>
    by_cases ha : p a = true
    · obtain ⟨c, hc, hpc⟩ := hx
      have hcx : c ∈ x := by
        rcases List.mem_cons.1 hc with h1 | h1
        · rw [h1, ha] at hpc
          exact absurd hpc (by decide)
        · exact h1
      rw [List.cons_append, List.dropWhile_cons, if_pos ha, List.dropWhile_cons, if_pos ha]
      exact ih ⟨c, hcx, hpc⟩
    · rw [List.cons_append, List.dropWhile_cons, if_neg ha, List.dropWhile_cons, if_neg ha]
      rfl

theorem rdropWhile_append_of_exists (a d : List Char) (hd : ∃ c ∈ d, p c = false) :
    (a ++ d).rdropWhile p = a ++ d.rdropWhile p := by
  unfold List.rdropWhile
  rw [List.reverse_append, dropWhile_append_of_exists p _ _ (by simpa using hd),
    List.reverse_append, List.reverse_reverse]

theorem exists_not_of_dropWhile_ne_nil (l : List Char) (h : l.dropWhile p ≠ []) :
    ∃ c ∈ l.dropWhile p, p c = false := by
  by_contra hcon
  apply h
  have hall : ∀ x ∈ l.dropWhile p, p x = true := by
    intro x hx
    by_contra hpx
    exact hcon ⟨x, hx, by simpa using hpx⟩
  have h1 := (List.dropWhile_eq_nil_iff (p := p) (l := l.dropWhile p)).2 hall
  rwa [List.dropWhile_idempotent] at h1

/-- The function returns the string without its leading and trailing whitespace. -/
theorem StripSurroundingWhitespaces_eq (str : List Char) :
    StripSurroundingWhitespaces p str = some (stripped p str) := by
  unfold StripSurroundingWhitespaces stripped
  simp only [skipLeading_eq, zero_add]
  by_cases hall : (str.takeWhile p).length = str.length
  · rw [if_pos hall, (length_takeWhile_eq_iff p str).1 hall, List.rdropWhile_nil]
  · rw [if_neg hall]
    have hd : str.dropWhile p ≠ [] := fun h => hall ((length_takeWhile_eq_iff p str).2 h)
    have hex := exists_not_of_dropWhile_ne_nil p str hd
    have hsplit := List.takeWhile_append_dropWhile p str
    have hr : str.rdropWhile p = str.takeWhile p ++ (str.dropWhile p).rdropWhile p := by
      conv_lhs => rw [← hsplit]
      exact rdropWhile_append_of_exists p _ _ hex
    have hrne : (str.dropWhile p).rdropWhile p ≠ [] := by
      intro h
      obtain ⟨c, hc, hpc⟩ := hex
      have := (List.rdropWhile_eq_nil_iff (p := p) (l := str.dropWhile p)).1 h c hc
      rw [hpc] at this
      exact absurd this (by decide)
    have hlen : 0 < str.length := by
      cases str with
      | nil => exact absurd rfl hall
      | cons _ _ => exact Nat.succ_pos _
    have hn1 : str.length - 1 + 1 = str.length := by omega
    have htake : str.take (str.length - 1 + 1) = str := by
      rw [hn1]
      exact List.take_of_length_le (le_refl _)
    obtain ⟨e, he, hlt, hte⟩ := skipTrailing_spec p str (str.length - 1) (by omega)
      (by rw [htake, hr]; simp [hrne])
    rw [htake, hr] at hte
    have hlen2 := congrArg List.length hte
    rw [List.length_take, List.length_append] at hlen2
    have hrpos : 0 < ((str.dropWhile p).rdropWhile p).length := List.length_pos.2 hrne
    have hbe : ¬ e < (str.takeWhile p).length := by omega
    simp only [he, if_neg hbe]
    have hcount : e - (str.takeWhile p).length + 1 = e + 1 - (str.takeWhile p).length := by omega
    rw [hcount, ← List.drop_take, hte, List.drop_left]

/-- A stripped string that is not empty starts and ends with a non-whitespace character and is
a substring of the string. -/
theorem stripped_isTrimmed (s : List Char) (hne : stripped p s ≠ []) :
    IsTrimmedSubstring p (stripped p s) s := by
  unfold stripped at hne ⊢
  have hd : s.dropWhile p ≠ [] := by
    intro h
    rw [h, List.rdropWhile_nil] at hne
    exact hne rfl
  obtain ⟨w, hw⟩ := List.rdropWhile_prefix p (s.dropWhile p)
  obtain ⟨u, hu⟩ := List.dropWhile_suffix (l := s) p
  refine ⟨⟨u, w, ?_⟩, ?_⟩
  · rw [List.append_assoc, hw, hu]
  · have hlast := List.rdropWhile_last_not p (s.dropWhile p) hne
    have hhead := List.head?_dropWhile_not p s
    cases hr : (s.dropWhile p).rdropWhile p with
    | nil => exact absurd hr hne
    | cons a r =>
      have hda : (s.dropWhile p).head? = some a := by
        rw [← hw, hr]
        rfl
      rw [hda] at hhead
      refine ⟨a, (a :: r).getLast (List.cons_ne_nil _ _), rfl,
        List.getLast?_eq_getLast _ _, hhead, ?_⟩
      have e : ((s.dropWhile p).rdropWhile p).getLast hne =
          (a :: r).getLast (List.cons_ne_nil _ _) := by
        congr 1
      rw [e] at hlast
      simpa using hlast

theorem dropWhile_keeps (u t v : List Char) (a : Char) (ha : t.head? = some a)
    (hpa : p a = false) : ∃ u2, (u ++ t ++ v).dropWhile p = u2 ++ t ++ v := by
  induction u with
  | nil =>
    cases t with
    | nil => exact absurd ha (by simp)
    | cons x t =>
      have hx : x = a := by simpa using ha
      refine ⟨[], ?_⟩
      rw [List.nil_append, List.cons_append, List.dropWhile_cons, hx, hpa]
      simp
  | cons x u ih =>
    by_cases hx : p x = true
    · obtain ⟨u2, hu2⟩ := ih
      refine ⟨u2, ?_⟩
      rw [List.cons_append, List.cons_append, List.dropWhile_cons, if_pos hx]
      exact hu2
    · refine ⟨x :: u, ?_⟩
      rw [List.cons_append, List.cons_append, List.dropWhile_cons, if_neg hx]

theorem rdropWhile_keeps (u t v : List Char) (b : Char) (hb : t.getLast? = some b)
    (hpb : p b = false) : ∃ v2, (u ++ t ++ v).rdropWhile p = u ++ t ++ v2 := by
  induction v using List.reverseRecOn with
  | nil =>
    refine ⟨[], ?_⟩
    rw [List.append_nil]
    have hex : ∃ c ∈ t, p c = false := ⟨b, List.mem_of_getLast?_eq_some hb, hpb⟩
    rw [rdropWhile_append_of_exists p u t hex]
    congr 1
    rw [List.rdropWhile_eq_self_iff]
    intro hl
    have : t.getLast hl = b := by
      have h2 := List.getLast?_eq_getLast t hl
      rw [hb] at h2
      exact (Option.some.inj h2).symm
    rw [this, hpb]
    decide
  | append_singleton v x ih =>
    by_cases hx : p x = true
    · obtain ⟨v2, hv2⟩ := ih
      refine ⟨v2, ?_⟩
      rw [← List.append_assoc, List.rdropWhile_concat_pos _ _ _ hx]
      exact hv2
    · refine ⟨v ++ [x], ?_⟩
      rw [← List.append_assoc, List.rdropWhile_concat_neg _ _ _ hx]

/-- Every substring that starts and ends with a non-whitespace character lies inside the
stripped string. -/
theorem isTrimmed_infix_stripped (s t : List Char) (ht : IsTrimmedSubstring p t s) :
    t <:+: stripped p s := by
  obtain ⟨⟨u, v, huv⟩, a, b, ha, hb, hpa, hpb⟩ := ht
  obtain ⟨u2, hu2⟩ := dropWhile_keeps p u t v a ha hpa
  obtain ⟨v2, hv2⟩ := rdropWhile_keeps p u2 t v b hb hpb
  unfold stripped
  rw [← huv, hu2, hv2]
  exact ⟨u2, v2, rfl⟩

theorem stripped_eq_nil_iff (s : List Char) :
    stripped p s = [] ↔ ∀ c ∈ s, p c = true := by
  constructor
  · intro h
    by_contra hcon
    have hd : s.dropWhile p ≠ [] := fun hd => hcon ((List.dropWhile_eq_nil_iff).1 hd)
    obtain ⟨c, hc, hpc⟩ := exists_not_of_dropWhile_ne_nil p s hd
    have := (List.rdropWhile_eq_nil_iff (p := p) (l := s.dropWhile p)).1 h c hc
    rw [hpc] at this
    exact absurd this (by decide)
  · intro h
    unfold stripped
    rw [(List.dropWhile_eq_nil_iff).2 h, List.rdropWhile_nil]

theorem stripped_idempotent (s : List Char) : stripped p (stripped p s) = stripped p s := by
  by_cases hne : stripped p s = []
  · rw [hne]
    rfl
  · obtain ⟨_, a, b, ha, hb, hpa, hpb⟩ := stripped_isTrimmed p s hne
    generalize stripped p s = r at hne ha hb
    unfold stripped
    have h1 : r.dropWhile p = r := by
      cases r with
      | nil => exact absurd rfl hne
      | cons x r =>
        have hx : x = a := by simpa using ha
        rw [List.dropWhile_cons, hx, hpa]
        simp
    rw [h1, List.rdropWhile_eq_self_iff]
    intro hl
    have : r.getLast hl = b := by
      have h2 := List.getLast?_eq_getLast r hl
      rw [hb] at h2
      exact (Option.some.inj h2).symm
    rw [this, hpb]
    decide

end c19

/-- C19: for every string `s`, `StripSurroundingWhitespaces` returns `s` with its maximal
whitespace prefix and its maximal whitespace suffix removed (interior whitespace kept). When
that result is not empty it is a substring of `s` that starts and ends with a non-whitespace
character, and it is the longest one: every such substring of `s` lies inside it. The result is
empty exactly when `s` is empty or consists of whitespace only, and the operation is
idempotent: stripping the result again leaves it unchanged. -/
theorem StripSurroundingWhitespaces_spec (isspace : Char → Bool) (s : List Char) :
    StripSurroundingWhitespaces isspace s = some (stripped isspace s) ∧
    (stripped isspace s ≠ [] → IsTrimmedSubstring isspace (stripped isspace s) s) ∧
    (∀ t, IsTrimmedSubstring isspace t s →
      t <:+: stripped isspace s ∧ t.length ≤ (stripped isspace s).length) ∧
    (stripped isspace s = [] ↔ ∀ c ∈ s, isspace c = true) ∧
    StripSurroundingWhitespaces isspace (stripped isspace s) = some (stripped isspace s) := by
  refine ⟨StripSurroundingWhitespaces_eq isspace s, stripped_isTrimmed isspace s,
    fun t ht => ?_, stripped_eq_nil_iff isspace s, ?_⟩
  · have hi := isTrimmed_infix_stripped isspace s t ht
    exact ⟨hi, hi.length_le⟩
  · rw [StripSurroundingWhitespaces_eq, stripped_idempotent]

/-- Witness of `StripSurroundingWhitespaces_spec`: the string `" a b\t"` with the "C" locale
`isspace`; its substring `"a b"` starts and ends with a non-whitespace character. -/
theorem StripSurroundingWhitespaces_spec_witness :
    IsTrimmedSubstring isspaceC ['a', ' ', 'b'] [' ', 'a', ' ', 'b', '\t'] ∧
    StripSurroundingWhitespaces isspaceC [' ', 'a', ' ', 'b', '\t'] = some ['a', ' ', 'b'] ∧
    ['a', ' ', 'b'].length ≤ (stripped isspaceC [' ', 'a', ' ', 'b', '\t']).length :=
  ⟨⟨⟨[' '], ['\t'], rfl⟩, 'a', 'b', rfl, rfl, rfl, rfl⟩, by decide,
    ((StripSurroundingWhitespaces_spec isspaceC [' ', 'a', ' ', 'b', '\t']).2.2.1
      ['a', ' ', 'b'] ⟨⟨[' '], ['\t'], rfl⟩, 'a', 'b', rfl, rfl, rfl, rfl⟩).2⟩

end common

namespace binary

/-! ## C14: null strings in the facade -/

open BinaryWriter

theorem strlen_replicate (n c : Nat) (hc : c ≠ 0) (rest : List Nat) :
    strlen (List.replicate n c ++ rest) = n + strlen rest := by
  induction n with
  | zero => simp
  | succ n ih =>
    unfold strlen at ih ⊢
    rw [List.replicate_succ, List.cons_append, List.takeWhile_cons]
    have hb : (c != 0) = true := by simpa using hc
    rw [hb]
    simp only [if_true, List.length_cons, ih]
    omega

theorem wrap32_of_int32 (x : Int) (h0 : -2147483648 ≤ x) (h1 : x ≤ 2147483647) :
    wrap32 x = x := by
  unfold wrap32
  omega

/-- C14 (as amended): null strings are values, not errors. For every field name,
`BinaryWriter::WriteString(fieldName, val)` with `val = null` is exactly the call
`WriteNull(fieldName)` on the implementation, and no string write; with `val` non-null it is
exactly one implementation call `WriteString(fieldName, val, len)`, where `len` is the number of
bytes of `val` before its first zero byte whenever that number is at most `INT32_MAX` (the
facade converts it to `int32_t`); the outcome of the facade is the outcome of that one call, so
the facade raises no error of its own. -/
theorem WriteString_facade :
    (∀ (σ ε : Type) (impl : Impl σ ε) (fieldName : CharPtr) (st : σ),
      WriteString impl fieldName none st = impl (ImplCall.WriteNull fieldName) st) ∧
    (∀ (σ ε : Type) (impl : Impl σ ε) (fieldName : CharPtr) (bytes : List Nat) (st : σ),
      (strlen bytes : Int) ≤ 2147483647 →
      WriteString impl fieldName (some bytes) st =
        impl (ImplCall.WriteString fieldName (some bytes) (strlen bytes)) st) ∧
    (∀ (fieldName : CharPtr) (calls : List ImplCall),
      WriteString recordingImpl fieldName none calls =
        Except.ok (calls ++ [ImplCall.WriteNull fieldName])) ∧
    (∀ (fieldName : CharPtr) (bytes : List Nat) (calls : List ImplCall),
      (strlen bytes : Int) ≤ 2147483647 →
      WriteString recordingImpl fieldName (some bytes) calls =
        Except.ok (calls ++ [ImplCall.WriteString fieldName (some bytes) (strlen bytes)])) ∧
    (∀ (σ ε : Type) (impl : Impl σ ε), (∀ call st, ∃ st2, impl call st = Except.ok st2) →
      ∀ (fieldName val : CharPtr) (st : σ), ∃ st2, WriteString impl fieldName val st =
        Except.ok st2) := by
  refine ⟨fun _ _ _ _ _ => rfl, fun σ ε impl fieldName bytes st hlen => ?_,
    fun _ _ => rfl, fun fieldName bytes calls hlen => ?_, fun σ ε impl himpl fieldName val st => ?_⟩
  · show impl (ImplCall.WriteString fieldName (some bytes) (wrap32 (strlen bytes))) st = _
    rw [wrap32_of_int32 _ (by omega) hlen]
  · show Except.ok (calls ++ [ImplCall.WriteString fieldName (some bytes)
      (wrap32 (strlen bytes))]) = _
    rw [wrap32_of_int32 _ (by omega) hlen]
  · cases val with
    | none => exact himpl _ st
    | some bytes => exact himpl _ st

/-- Witness of `WriteString_facade`: the string `"hi"` written to the field `"b"`. -/
theorem WriteString_facade_witness :
    ((strlen [104, 105, 0] : Nat) : Int) ≤ 2147483647 ∧
    WriteString recordingImpl (some [98, 0]) (some [104, 105, 0]) [] =
      Except.ok ([] ++ [ImplCall.WriteString (some [98, 0]) (some [104, 105, 0])
        (strlen [104, 105, 0])]) :=
  ⟨by decide, WriteString_facade.2.2.2.1 (some [98, 0]) [104, 105, 0] [] (by decide)⟩

/-- C14 as stated fails for a string of `2^31` bytes: its length before the first zero byte is
`2147483648`, the facade converts it to `int32_t`, and the implementation is called with
`len = -2147483648`. -/
theorem WriteString_facade_counterexample :
    strlen (List.replicate 2147483648 65 ++ [0]) = 2147483648 ∧
    WriteString recordingImpl (some [98, 0]) (some (List.replicate 2147483648 65 ++ [0])) [] =
      Except.ok [ImplCall.WriteString (some [98, 0])
        (some (List.replicate 2147483648 65 ++ [0])) (-2147483648)] ∧
    ¬ (WriteString recordingImpl (some [98, 0])
        (some (List.replicate 2147483648 65 ++ [0])) [] =
      Except.ok [ImplCall.WriteString (some [98, 0])
        (some (List.replicate 2147483648 65 ++ [0]))
        (strlen (List.replicate 2147483648 65 ++ [0]))]) := by
  have hs : strlen (List.replicate 2147483648 65 ++ [0]) = 2147483648 := by
    rw [strlen_replicate 2147483648 65 (by decide) [0]]
    rfl
  have hw : wrap32 ((2147483648 : Nat) : Int) = -2147483648 := by decide
  have hcall : WriteString recordingImpl (some [98, 0])
      (some (List.replicate 2147483648 65 ++ [0])) [] =
      Except.ok [ImplCall.WriteString (some [98, 0])
        (some (List.replicate 2147483648 65 ++ [0])) (-2147483648)] := by
    show Except.ok ([] ++ [ImplCall.WriteString (some [98, 0])
      (some (List.replicate 2147483648 65 ++ [0]))
      (wrap32 (strlen (List.replicate 2147483648 65 ++ [0])))]) = _
    rw [hs, hw]
    rfl
  refine ⟨hs, hcall, fun hne => ?_⟩
  rw [hcall, hs] at hne
  injection hne with h1
  injection h1 with h2
  injection h2 with _ _ h3
  exact absurd h3 (by decide)

end binary

end ignite
